import Mathlib

set_option maxRecDepth 100000
set_option maxHeartbeats 4000000

/-!
# Verification of the engine's PES/TS packetizer and video track

Shallow embedding of the repository's media core:

* the MPEG-TS packetizer (`WritePESPacket`, `WriteAudioFrame`) from the
  `MemoryTs` file;
* the video track (`WriteAnnexB`, `writeAnnexBSlice`, `WriteAVCC`, `Flush`,
  `ComputeGOP`, `ReadRing`, `Play`) from `track/video.go`.

Bytes are modelled as `Nat` values (each `< 256` where produced by the
serializers).  Buffer lists (`net.Buffers`) are `List (List Nat)`.

The helper packages `mpegts`, `util` and `common` belong to this repository
but are not part of the provided sources; where a definition depends on
them, its doc comment starts with `Modelled from the spec:` and records the
modelling choice.
-/

/-- Big-endian serialization of the low `w` bytes of `n`
(the behaviour of `util.PutBE` on a `w`-byte destination). -/
def putBE (w n : Nat) : List Nat :=
  (List.range w).map (fun i => n / 256 ^ (w - 1 - i) % 256)

/-- Big-endian read of a byte list (the behaviour of `util.ReadBE`). -/
def readBE (bs : List Nat) : Nat :=
  bs.foldl (fun acc b => acc * 256 + b % 256) 0

/-- `util.SizeOfBuffers`: total byte length of a buffer list (accumulator
form, so that concrete evaluation is iterative). -/
def SizeOfBuffers (bufs : List (List Nat)) : Nat :=
  bufs.foldl (fun acc b => acc + b.length) 0

theorem SizeOfBuffers_cons (b : List Nat) (bs : List (List Nat)) :
    SizeOfBuffers (b :: bs) = b.length + SizeOfBuffers bs := by
  have step : ∀ (l : List (List Nat)) (a : Nat),
      l.foldl (fun acc b => acc + b.length) a = a + l.foldl (fun acc b => acc + b.length) 0 := by
    intro l
    induction l with
    | nil => simp
    | cons x xs ih =>
      intro a
      simp only [List.foldl_cons]
      rw [ih (a + x.length), ih (0 + x.length)]
      omega
  simp only [SizeOfBuffers, List.foldl_cons]
  rw [step]
  omega

/-- The fixed MPEG transport-stream packet size (`mpegts.TS_PACKET_SIZE`). -/
def TS_PACKET_SIZE : Nat := 188

/-- The per-PID mux context (`mpegts.MpegtsPESFrame`). -/
structure MpegtsPESFrame where
  Pid : Nat
  IsKeyFrame : Bool
  ContinuityCounter : Nat
  ProgramClockReferenceBase : Nat
deriving DecidableEq

/-- The PES packet header (`mpegts.MpegTsPESHeader`), restricted to the
fields the packetizer reads and writes. -/
structure MpegTsPESHeader where
  PacketStartCodePrefix : Nat
  ConstTen : Nat
  StreamID : Nat
  PesPacketLength : Nat
  Pts : Nat
  Dts : Nat
  PtsDtsFlags : Nat
  PesHeaderDataLength : Nat
deriving DecidableEq

/-- A PES packet (`mpegts.MpegTsPESPacket`): header plus payload fragments. -/
structure MpegTsPESPacket where
  Header : MpegTsPESHeader
  Buffers : List (List Nat)
deriving DecidableEq

/-- The TS packet header record (`mpegts.MpegTsHeader`), with the fields
`WritePESPacket` assigns. -/
structure MpegTsHeader where
  SyncByte : Nat
  TransportErrorIndicator : Nat
  PayloadUnitStartIndicator : Nat
  TransportPriority : Nat
  Pid : Nat
  TransportScramblingControl : Nat
  AdaptionFieldControl : Nat
  ContinuityCounter : Nat
  AdaptationFieldLength : Nat
  PCRFlag : Nat
  RandomAccessIndicator : Nat
  ProgramClockReferenceBase : Nat
deriving DecidableEq

/-- Modelled from the spec: the 6-byte Program Clock Reference field layout
(`PCR present only on keyframe-initial packets`, standard adaptation-field
bit layout).  Only its length matters to the claims. -/
def pcrBytes (base : Nat) : List Nat :=
  [base / 2 ^ 25 % 256, base / 2 ^ 17 % 256, base / 2 ^ 9 % 256,
   base / 2 % 256, base % 2 * 128 + 0x7E, 0]

/-- Modelled from the spec: `mpegts.WriteTsHeader` serializes the 4-byte TS
header (sync byte 0x47, PID, adaptation-field control, 4-bit continuity
counter) and, when the adaptation-field-control bit is set, the adaptation
field: its length byte, the flags byte, the PCR when flagged, and stuffing
bytes (`0xFF`) filling the declared adaptation-field length, so that the
emitted packet is exactly the fixed wire size.  The returned count is the
number of bytes written excluding the stuffing: the caller
(`WritePESPacket`) adds the stuffing length itself (line
`tsHeaderLength += int(tsStuffingLength)`), which forces this convention on
the model. -/
def WriteTsHeader (h : MpegTsHeader) : List Nat × Nat :=
  let b1 := (h.TransportErrorIndicator * 128 + h.PayloadUnitStartIndicator * 64 +
             h.TransportPriority * 32 + h.Pid / 256) % 256
  let b3 := (h.TransportScramblingControl * 64 + h.AdaptionFieldControl % 4 * 16 +
             h.ContinuityCounter % 16) % 256
  let base := [h.SyncByte % 256, b1, h.Pid % 256, b3]
  if 2 ≤ h.AdaptionFieldControl % 4 then
    let afl := h.AdaptationFieldLength
    if afl = 0 then (base ++ [0], 5)
    else
      let flags := (h.RandomAccessIndicator * 64 + h.PCRFlag * 16) % 256
      let core := flags :: (if h.PCRFlag = 1 ∧ 7 ≤ afl then
                              pcrBytes h.ProgramClockReferenceBase else [])
      let body := (core ++ List.replicate (afl - core.length) 0xFF).take afl
      (base ++ afl % 256 :: body, 4 + 1 + min core.length afl)
  else (base, 4)

/-- Modelled from the spec: `mpegts.WritePESHeader` serializes the start-code
bytes, stream id, the 16-bit PES packet length, the two flag bytes, the
header-data-length byte, and then exactly `PesHeaderDataLength` bytes of
optional-header data (PTS/DTS stamps padded with `0xFF`).  Its byte length
is always `9 + PesHeaderDataLength`. -/
def WritePESHeader (h : MpegTsPESHeader) : List Nat :=
  let stamp := fun (marker v : Nat) =>
    [(marker * 16 + v / 2 ^ 30 % 8 * 2 + 1) % 256, v / 2 ^ 22 % 256,
     (v / 2 ^ 15 % 128 * 2 + 1) % 256, v / 2 ^ 7 % 256, (v % 128 * 2 + 1) % 256]
  let core :=
    (if h.PtsDtsFlags / 128 % 2 = 1 then
       stamp (if 0xC0 ≤ h.PtsDtsFlags then 3 else 2) h.Pts else []) ++
    (if 0xC0 ≤ h.PtsDtsFlags then stamp 1 h.Dts else [])
  [h.PacketStartCodePrefix / 65536 % 256, h.PacketStartCodePrefix / 256 % 256,
   h.PacketStartCodePrefix % 256, h.StreamID % 256,
   h.PesPacketLength / 256 % 256, h.PesPacketLength % 256,
   h.ConstTen % 256, h.PtsDtsFlags % 256, h.PesHeaderDataLength % 256] ++
  (core ++ List.replicate (h.PesHeaderDataLength - core.length) 0xFF).take
    h.PesHeaderDataLength

theorem WritePESHeader_length (h : MpegTsPESHeader) :
    (WritePESHeader h).length = 9 + h.PesHeaderDataLength := by
  simp only [WritePESHeader, List.length_append, List.length_take,
    List.length_replicate, List.length_cons]
  split <;> split <;> simp <;> omega

/-- Failure modes of `WritePESPacket` (Go `error` values), plus a fuel marker
for the embedding's bounded recursion (never reached by the runs proved
about below). -/
inductive TsWriteError where
  | startCode
  | packetSize (n : Nat)
  | fuel
deriving DecidableEq

/-- One emitted TS packet: the header record assembled by `WritePESPacket`
together with the bytes written into the pooled 188-byte buffer. -/
structure TsPacket where
  header : MpegTsHeader
  bytes : List Nat
deriving DecidableEq

/-- Result of a `WritePESPacket` call: error status, emitted TS packets (in
emission order), and the PID's continuity counter after the call. -/
structure PESResult where
  err : Option TsWriteError
  packets : List TsPacket
  cc : Nat
deriving DecidableEq

/-- The TS header record assembled by the loop body of `WritePESPacket`
(source lines 49-90): base header with the PID and the current continuity
counter; on the first packet the payload-unit-start indicator, and for
keyframes a 7-byte PCR adaptation field; when the (frozen) PES packet
length is below `TS_PACKET_SIZE - 4`, a padding adaptation field of length
`TS_PACKET_SIZE - 4 - 1 - pesPktLength`. -/
def WritePESPacket.mkHeader (frame : MpegtsPESFrame) (i cc ppl : Nat) : MpegTsHeader :=
  let h0 : MpegTsHeader :=
    { SyncByte := 0x47
      TransportErrorIndicator := 0
      PayloadUnitStartIndicator := 0
      TransportPriority := 0
      Pid := frame.Pid
      TransportScramblingControl := 0
      AdaptionFieldControl := 1
      ContinuityCounter := cc
      AdaptationFieldLength := 0
      PCRFlag := 0
      RandomAccessIndicator := 0
      ProgramClockReferenceBase := 0 }
  let h1 :=
    if i = 0 then
      let hA := { h0 with PayloadUnitStartIndicator := 1 }
      if frame.IsKeyFrame then
        { hA with AdaptionFieldControl := 0x03, AdaptationFieldLength := 7,
                  PCRFlag := 1, RandomAccessIndicator := 1,
                  ProgramClockReferenceBase := frame.ProgramClockReferenceBase }
      else hA
    else h0
  if ppl < TS_PACKET_SIZE - 4 then
    { h1 with AdaptionFieldControl := 0x03,
              AdaptationFieldLength := TS_PACKET_SIZE - 4 - 1 - ppl }
  else h1

theorem WritePESPacket.mkHeader_cc (frame : MpegtsPESFrame) (i cc ppl : Nat) :
    (WritePESPacket.mkHeader frame i cc ppl).ContinuityCounter = cc := by
  unfold WritePESPacket.mkHeader
  split_ifs <;> rfl

theorem WritePESPacket.mkHeader_pid (frame : MpegtsPESFrame) (i cc ppl : Nat) :
    (WritePESPacket.mkHeader frame i cc ppl).Pid = frame.Pid := by
  unfold WritePESPacket.mkHeader
  split_ifs <;> rfl

/-- The per-packet loop of `WritePESPacket` (the `for i := 0; ...` loop).
One iteration per TS packet: on the first iteration the PES header is
written into the packet buffer and `pesPktLength` is computed (once — the
source never updates it afterwards); the TS header record is built carrying
the current continuity counter, which is then incremented modulo 16; the
first packet sets the payload-unit-start indicator and, for keyframes, a
PCR adaptation field; when `pesPktLength < TS_PACKET_SIZE-4` a padding
adaptation field of length `TS_PACKET_SIZE-4-1-pesPktLength` is configured;
`io.CopyN` then moves `tsPayloadLength` bytes of the remaining PES bytes
into the buffer, and the assembled size is checked against
`TS_PACKET_SIZE`, any other size aborting with an error. -/
def WritePESPacket.step (frame : MpegtsPESFrame) (pesHdr : List Nat) (i : Nat)
    (rem : List Nat) (ppl0 cc : Nat) : TsPacket × List Nat × Nat :=
  let hdrHead := if i = 0 then pesHdr else []
  let ppl := if i = 0 then pesHdr.length + rem.length else ppl0
  let padded := ppl < TS_PACKET_SIZE - 4
  let h2 := WritePESPacket.mkHeader frame i cc ppl
  let stuffing :=
    if padded then
      if 1 ≤ h2.AdaptationFieldLength then h2.AdaptationFieldLength - 1 else 0
    else 0
  let w := WriteTsHeader h2
  let tsHeaderLength := if padded then w.2 + stuffing else w.2
  let tsPayloadLength := TS_PACKET_SIZE - tsHeaderLength
  (⟨h2, hdrHead ++ w.1 ++ rem.take tsPayloadLength⟩, rem.drop tsPayloadLength, ppl)

theorem WritePESPacket.step_header (frame : MpegtsPESFrame) (pesHdr : List Nat)
    (i : Nat) (rem : List Nat) (ppl0 cc : Nat) :
    (WritePESPacket.step frame pesHdr i rem ppl0 cc).1.header =
      WritePESPacket.mkHeader frame i cc
        (if i = 0 then pesHdr.length + rem.length else ppl0) := rfl

def WritePESPacket.go (frame : MpegtsPESFrame) (pesHdr : List Nat) :
    Nat → Nat → List Nat → Nat → Nat → PESResult
  | 0, _, _, _, cc => ⟨some .fuel, [], cc⟩
  | _ + 1, _, [], _, cc => ⟨none, [], cc⟩
  | fuel + 1, i, b :: bs, ppl0, cc =>
    let s := WritePESPacket.step frame pesHdr i (b :: bs) ppl0 cc
    let cc' := (cc + 1) % 16
    if s.1.bytes.length ≠ TS_PACKET_SIZE then
      ⟨some (.packetSize s.1.bytes.length), [s.1], cc'⟩
    else
      let r := WritePESPacket.go frame pesHdr fuel (i + 1) s.2.1 s.2.2 cc'
      ⟨r.err, s.1 :: r.packets, r.cc⟩

/-- `MemoryTs.WritePESPacket`: rejects a start-code prefix other than
`0x000001` before emitting anything, then fragments the PES header and
payload across fixed-size TS packets. -/
def WritePESPacket (frame : MpegtsPESFrame) (packet : MpegTsPESPacket) : PESResult :=
  if packet.Header.PacketStartCodePrefix ≠ 0x000001 then
    ⟨some .startCode, [], frame.ContinuityCounter⟩
  else
    let rem := packet.Buffers.flatten
    WritePESPacket.go frame (WritePESHeader packet.Header)
      (rem.length + 2) 0 rem 0 frame.ContinuityCounter

/-- Threading one PID's mux context through a sequence of `WritePESPacket`
calls (the caller keeps one `MpegtsPESFrame` per PID, whose
`ContinuityCounter` the packetizer advances in place): the emitted TS
packets of all calls in order, and the final continuity counter. -/
def writeSequencePES (frame : MpegtsPESFrame) : List MpegTsPESPacket → List TsPacket × Nat
  | [] => ([], frame.ContinuityCounter)
  | p :: ps =>
    let r := WritePESPacket frame p
    let rest := writeSequencePES { frame with ContinuityCounter := r.cc } ps
    (r.packets ++ rest.1, rest.2)

theorem WritePESPacket.go_cc (frame : MpegtsPESFrame) (pesHdr : List Nat) :
    ∀ (fuel i : Nat) (rem : List Nat) (ppl0 cc : Nat), cc < 16 →
      ((WritePESPacket.go frame pesHdr fuel i rem ppl0 cc).packets.map
          (fun p => p.header.ContinuityCounter) =
        (List.range (WritePESPacket.go frame pesHdr fuel i rem ppl0 cc).packets.length).map
          (fun k => (cc + k) % 16)) ∧
      ((WritePESPacket.go frame pesHdr fuel i rem ppl0 cc).packets.map
          (fun p => p.header.Pid) =
        List.replicate (WritePESPacket.go frame pesHdr fuel i rem ppl0 cc).packets.length
          frame.Pid) ∧
      (WritePESPacket.go frame pesHdr fuel i rem ppl0 cc).cc =
        (cc + (WritePESPacket.go frame pesHdr fuel i rem ppl0 cc).packets.length) % 16 := by
  intro fuel
  induction fuel with
  | zero =>
    intro i rem ppl0 cc hcc
    simp [WritePESPacket.go, Nat.mod_eq_of_lt hcc]
  | succ fuel ih =>
    intro i rem ppl0 cc hcc
    match rem with
    | [] => simp [WritePESPacket.go, Nat.mod_eq_of_lt hcc]
    | b :: bs =>
      rw [WritePESPacket.go]
      have hhd : (WritePESPacket.step frame pesHdr i (b :: bs) ppl0 cc).1.header.ContinuityCounter = cc := by
        rw [WritePESPacket.step_header, WritePESPacket.mkHeader_cc]
      have hpid : (WritePESPacket.step frame pesHdr i (b :: bs) ppl0 cc).1.header.Pid = frame.Pid := by
        rw [WritePESPacket.step_header, WritePESPacket.mkHeader_pid]
      simp only []
      split
      · have h1 : List.range 1 = [0] := rfl
        simp [hhd, hpid, h1, Nat.mod_eq_of_lt hcc]
      · have hcc' : (cc + 1) % 16 < 16 := Nat.mod_lt _ (by omega)
        obtain ⟨ih1, ih2, ih3⟩ := ih (i + 1)
          (WritePESPacket.step frame pesHdr i (b :: bs) ppl0 cc).2.1
          (WritePESPacket.step frame pesHdr i (b :: bs) ppl0 cc).2.2 ((cc + 1) % 16) hcc'
        refine ⟨?_, ?_, ?_⟩
        · rw [List.map_cons, ih1, hhd, List.length_cons, List.range_succ_eq_map,
            List.map_cons, List.map_map]
          simp only [List.cons.injEq]
          refine ⟨by omega, List.map_congr_left ?_⟩
          intro k _
          simp only [Function.comp_apply, Nat.mod_add_mod]
          omega
        · simp [ih2, hpid, List.replicate_succ]
        · simp only [List.length_cons, ih3, Nat.mod_add_mod]
          omega

theorem WritePESPacket_cc (frame : MpegtsPESFrame) (packet : MpegTsPESPacket)
    (h : frame.ContinuityCounter < 16) :
    ((WritePESPacket frame packet).packets.map (fun p => p.header.ContinuityCounter) =
      (List.range (WritePESPacket frame packet).packets.length).map
        (fun k => (frame.ContinuityCounter + k) % 16)) ∧
    ((WritePESPacket frame packet).packets.map (fun p => p.header.Pid) =
      List.replicate (WritePESPacket frame packet).packets.length frame.Pid) ∧
    (WritePESPacket frame packet).cc =
      (frame.ContinuityCounter + (WritePESPacket frame packet).packets.length) % 16 := by
  unfold WritePESPacket
  split
  · simp [Nat.mod_eq_of_lt h]
  · exact WritePESPacket.go_cc frame _ _ 0 _ 0 frame.ContinuityCounter h

/-- **C3.**  Per PES frame context (PID), every TS packet emitted by
`WritePESPacket` carries the context's current continuity counter and its
PID in the assembled TS header, after which the counter is incremented
modulo 16; hence across any sequence of `WritePESPacket` calls on one PID
the emitted counter values are `(cc₀ + k) % 16` for `k = 0, 1, 2, …` — the
counter cycles `0 → 15 → 0` with no skipped value — and the counter of a
different PID's context (a different `MpegtsPESFrame` value) is untouched
by construction. -/
theorem continuityCounter_cycles (frame : MpegtsPESFrame) (ps : List MpegTsPESPacket)
    (h : frame.ContinuityCounter < 16) :
    ((writeSequencePES frame ps).1.map (fun p => p.header.ContinuityCounter) =
      (List.range (writeSequencePES frame ps).1.length).map
        (fun k => (frame.ContinuityCounter + k) % 16)) ∧
    ((writeSequencePES frame ps).1.map (fun p => p.header.Pid) =
      List.replicate (writeSequencePES frame ps).1.length frame.Pid) ∧
    (writeSequencePES frame ps).2 =
      (frame.ContinuityCounter + (writeSequencePES frame ps).1.length) % 16 := by
  induction ps generalizing frame with
  | nil => simp [writeSequencePES, Nat.mod_eq_of_lt h]
  | cons p ps ih =>
    obtain ⟨c1, c2, c3⟩ := WritePESPacket_cc frame p h
    have hlt : (WritePESPacket frame p).cc < 16 := by
      rw [c3]; exact Nat.mod_lt _ (by omega)
    obtain ⟨i1, i2, i3⟩ :=
      ih { frame with ContinuityCounter := (WritePESPacket frame p).cc } hlt
    simp only [writeSequencePES]
    refine ⟨?_, ?_, ?_⟩
    · rw [List.map_append, c1, i1, List.length_append, List.range_add,
        List.map_append, List.map_map]
      congr 1
      apply List.map_congr_left
      intro k _
      simp only [Function.comp_apply, c3, Nat.mod_add_mod]
      omega
    · rw [List.map_append, c2, i2, List.length_append, List.replicate_add]
    · rw [i3, List.length_append, c3, Nat.mod_add_mod]
      omega

/-- **C2.**  A PES packet whose start-code prefix is not `0x000001` makes
`WritePESPacket` return the start-code error immediately: no TS packet is
emitted and the PID's continuity counter is left unchanged. -/
theorem WritePESPacket_badStartCode (frame : MpegtsPESFrame) (packet : MpegTsPESPacket)
    (h : packet.Header.PacketStartCodePrefix ≠ 0x000001) :
    WritePESPacket frame packet =
      ⟨some TsWriteError.startCode, [], frame.ContinuityCounter⟩ := by
  simp [WritePESPacket, h]

/-- A PID context for concrete runs (PID 257, not a keyframe, counter 0). -/
def exFrameA : MpegtsPESFrame := ⟨257, false, 0, 0⟩

/-- A PID context for concrete runs with the counter near wrap-around. -/
def exFrameB : MpegtsPESFrame := ⟨300, false, 14, 0⟩

/-- An audio-style PES packet with an `n`-byte payload: 5 bytes of optional
header data (PTS only), so the serialized PES header is 14 bytes long. -/
def exPES (n : Nat) : MpegTsPESPacket :=
  ⟨⟨1, 0x80, 0xC0, (7 + n + 8) % 65536, 0, 0, 0x80, 5⟩, [List.replicate n 0xAB]⟩

/-- A PES packet with a corrupted start-code prefix. -/
def exBadPES : MpegTsPESPacket := ⟨⟨2, 0x80, 0xC0, 100, 0, 0, 0x80, 5⟩, [[1, 2, 3]]⟩

theorem WritePESPacket_badStartCode_witness :
    exBadPES.Header.PacketStartCodePrefix ≠ 0x000001 ∧
    WritePESPacket exFrameA exBadPES =
      ⟨some TsWriteError.startCode, [], exFrameA.ContinuityCounter⟩ :=
  ⟨by decide, WritePESPacket_badStartCode exFrameA exBadPES (by decide)⟩

theorem continuityCounter_cycles_witness :
    exFrameB.ContinuityCounter < 16 ∧
    (((writeSequencePES exFrameB [exPES 100, exPES 120]).1.map
        (fun p => p.header.ContinuityCounter) =
      (List.range (writeSequencePES exFrameB [exPES 100, exPES 120]).1.length).map
        (fun k => (exFrameB.ContinuityCounter + k) % 16)) ∧
    ((writeSequencePES exFrameB [exPES 100, exPES 120]).1.map (fun p => p.header.Pid) =
      List.replicate (writeSequencePES exFrameB [exPES 100, exPES 120]).1.length
        exFrameB.Pid) ∧
    (writeSequencePES exFrameB [exPES 100, exPES 120]).2 =
      (exFrameB.ContinuityCounter +
        (writeSequencePES exFrameB [exPES 100, exPES 120]).1.length) % 16) :=
  ⟨by decide, continuityCounter_cycles exFrameB [exPES 100, exPES 120] (by decide)⟩

/-- Sanity check of the model (not a claim theorem): a PES packet that fits a
single TS packet (14-byte PES header + 100-byte payload = 114 < 184) is
emitted as exactly one 188-byte TS packet whose padding adaptation field
has length `TS_PACKET_SIZE - 4 - 1 - 114 = 69`, and the call succeeds. -/
theorem WritePESPacket_singlePacket_example :
    (WritePESPacket exFrameA (exPES 100)).err = none ∧
    (WritePESPacket exFrameA (exPES 100)).packets.map (fun p => p.bytes.length) =
      [TS_PACKET_SIZE] ∧
    (WritePESPacket exFrameA (exPES 100)).packets.map
      (fun p => p.header.AdaptationFieldLength) = [TS_PACKET_SIZE - 4 - 1 - 114] := by
  decide

/-- **C1 (code bug).**  `WritePESPacket` computes `pesPktLength` once, on the
first TS packet, and never updates it as the payload is consumed, so the
padding branch compares the *total* PES length — not the remaining
payload — against the packet capacity.  For any PES packet of total length
`≥ TS_PACKET_SIZE - 4` (here: 14-byte PES header + 200-byte payload = 214)
no packet ever receives a padding adaptation field (the emitted packet's
adaptation-field control stays `1`), an assembled packet's written size
differs from 188, and the call aborts with the size error on input the
function is designed for. -/
theorem WritePESPacket_sizeCheck_bug :
    (WritePESPacket exFrameA (exPES 200)).err = some (TsWriteError.packetSize 202) ∧
    (WritePESPacket exFrameA (exPES 200)).packets.map (fun p => p.bytes.length) = [202] ∧
    (WritePESPacket exFrameA (exPES 200)).packets.map
      (fun p => p.header.AdaptionFieldControl) = [1] := by
  decide

/-- The AAC configuration (`codec.AudioSpecificConfig`), restricted to the
fields the ADTS header serializes. -/
structure AudioSpecificConfig where
  AudioObjectType : Nat
  SamplingFrequencyIndex : Nat
  ChannelConfiguration : Nat
deriving DecidableEq

/-- Modelled from the spec: `AudioSpecificConfig.ToADTS` builds the fixed
7-byte ADTS header from the audio configuration and the access-unit byte
length (the ADTS frame length field counts the 7 header bytes). -/
def ToADTS (asc : AudioSpecificConfig) (auLen : Nat) : List Nat :=
  let flen := auLen + 7
  [0xFF, 0xF1,
   (asc.AudioObjectType - 1) % 4 * 64 + asc.SamplingFrequencyIndex % 16 * 4 +
     asc.ChannelConfiguration / 4,
   asc.ChannelConfiguration % 4 * 64 + flen / 2048 % 4,
   flen / 8 % 256, flen % 8 * 32 + 0x1F, 0xFC]

theorem ToADTS_length (asc : AudioSpecificConfig) (auLen : Nat) :
    (ToADTS asc auLen).length = 7 := rfl

/-- `mpegts.STREAM_ID_AUDIO`. -/
def STREAM_ID_AUDIO : Nat := 0xC0

/-- An audio access unit with its presentation timestamp (`AudioFrame`:
`PTS` and the `AUList` fragment list). -/
structure AudioFrame where
  PTS : Nat
  AUList : List (List Nat)
deriving DecidableEq

/-- The PES packet `MemoryTs.WriteAudioFrame` assembles: ADTS header plus
access unit as payload, PES packet length `len(adts) + ByteLength + 8`
(narrowed to the 16-bit field by `uint16(...)`), PTS-only optional header
of 5 bytes. -/
def audioPESPacket (asc : AudioSpecificConfig) (frame : AudioFrame) : MpegTsPESPacket :=
  let adts := ToADTS asc (SizeOfBuffers frame.AUList)
  let pktLength := adts.length + SizeOfBuffers frame.AUList + 8
  { Header :=
      { PacketStartCodePrefix := 0x000001
        ConstTen := 0x80
        StreamID := STREAM_ID_AUDIO
        PesPacketLength := pktLength % 65536
        Pts := frame.PTS
        Dts := 0
        PtsDtsFlags := 0x80
        PesHeaderDataLength := 5 }
    Buffers := adts :: frame.AUList }

/-- `MemoryTs.WriteAudioFrame`: builds the ADTS-prefixed PES packet and
delegates it to `WritePESPacket`. -/
def WriteAudioFrame (asc : AudioSpecificConfig) (frame : AudioFrame)
    (pes : MpegtsPESFrame) : PESResult :=
  WritePESPacket pes (audioPESPacket asc frame)

/-- An arbitrary concrete AAC configuration (AAC-LC, 44.1 kHz, stereo). -/
def exASC : AudioSpecificConfig := ⟨2, 4, 2⟩

/-- **C9 (amended).**  `WriteAudioFrame` builds a PES packet whose length
field is `(7 + access-unit byte length + 8) % 2^16` — the 7-byte ADTS
header plus the access unit plus the 8-byte PTS-only optional PES header,
silently narrowed to the 16-bit field — and delegates the packet to
`WritePESPacket`; a 1024-byte access unit yields a length field of 1039. -/
theorem WriteAudioFrame_pesPacketLength :
    (∀ (asc : AudioSpecificConfig) (frame : AudioFrame),
        (audioPESPacket asc frame).Header.PesPacketLength =
          (7 + SizeOfBuffers frame.AUList + 8) % 65536) ∧
    (∀ (asc : AudioSpecificConfig) (frame : AudioFrame) (pes : MpegtsPESFrame),
        WriteAudioFrame asc frame pes = WritePESPacket pes (audioPESPacket asc frame)) ∧
    (∀ (asc : AudioSpecificConfig) (pts b : Nat),
        (audioPESPacket asc ⟨pts, [List.replicate 1024 b]⟩).Header.PesPacketLength = 1039) := by
  refine ⟨fun asc frame => ?_, fun _ _ _ => rfl, fun asc pts b => ?_⟩
  · simp [audioPESPacket, ToADTS_length]
  · have h : SizeOfBuffers [List.replicate 1024 b] = 1024 := by
      rw [SizeOfBuffers_cons, List.length_replicate]; rfl
    simp only [audioPESPacket, ToADTS_length, h]

/-- **C9 counterexample.**  The claim's unqualified formula fails once
`7 + access-unit length + 8` exceeds the 16-bit length field: for a 65536
byte access unit (256 fragments of 256 bytes) the code stores
`65551 % 2^16 = 15`, not `7 + 65536 + 8 = 65551`. -/
theorem WriteAudioFrame_pesPacketLength_overflow :
    (audioPESPacket exASC
        ⟨0, List.replicate 256 (List.replicate 256 0)⟩).Header.PesPacketLength = 15 ∧
    (7 : Nat) + 65536 + 8 ≠ 15 := by
  constructor
  · decide
  · decide

/-! ## Video track (`track/video.go`) -/

/-- `sep` is a leading segment of `bs` (Go `bytes.HasPrefix`). -/
def isLead : List Nat → List Nat → Bool
  | [], _ => true
  | _ :: _, [] => false
  | a :: as, b :: bs => a = b && isLead as bs

/-- Go `bytes.Cut(s, sep)`: split `s` around the first occurrence of `sep`;
`none` models `found = false`. -/
def cutB (sep : List Nat) : List Nat → Option (List Nat × List Nat)
  | [] => none
  | b :: bs =>
    if isLead sep (b :: bs) then some ([], (b :: bs).drop sep.length)
    else (cutB sep bs).map (fun p => (b :: p.1, p.2))

/-- `sep` occurs somewhere in `bs` as a contiguous segment. -/
def hasOcc (sep : List Nat) : List Nat → Bool
  | [] => isLead sep []
  | b :: bs => isLead sep (b :: bs) || hasOcc sep bs

theorem isLead_length {sep bs : List Nat} (h : isLead sep bs = true) :
    sep.length ≤ bs.length := by
  induction sep generalizing bs with
  | nil => simp
  | cons a as ih =>
    match bs with
    | [] => simp [isLead] at h
    | b :: bs =>
      simp only [isLead, Bool.and_eq_true] at h
      simpa using ih h.2

theorem isLead_self_append (sep t : List Nat) : isLead sep (sep ++ t) = true := by
  induction sep with
  | nil => rfl
  | cons a as ih => simp [isLead, ih]

theorem isLead_append_left {sep xs : List Nat} (ys : List Nat)
    (h : sep.length ≤ xs.length) : isLead sep (xs ++ ys) = isLead sep xs := by
  induction sep generalizing xs with
  | nil => rfl
  | cons a as ih =>
    match xs with
    | [] => simp at h
    | x :: xs =>
      simp only [List.cons_append, isLead, List.append_eq]
      rw [ih (by simpa using h)]

theorem isLead_drop_eq {sep bs : List Nat} (h : isLead sep bs = true) :
    bs = sep ++ bs.drop sep.length := by
  induction sep generalizing bs with
  | nil => simp
  | cons a as ih =>
    match bs with
    | [] => simp [isLead] at h
    | b :: bs =>
      simp only [isLead, Bool.and_eq_true, decide_eq_true_eq] at h
      simp only [List.cons_append, List.length_cons, List.drop_succ_cons]
      rw [h.1]
      exact congrArg (b :: ·) (ih h.2)

theorem isLead_append_long {sep xs ys : List Nat} (h : isLead sep (xs ++ ys) = true)
    (hlt : xs.length < sep.length) :
    sep.take xs.length = xs ∧ isLead (sep.drop xs.length) ys = true := by
  induction xs generalizing sep with
  | nil => simpa using h
  | cons x xs ih =>
    match sep with
    | [] => simp at hlt
    | a :: as =>
      simp only [List.cons_append, isLead, Bool.and_eq_true, decide_eq_true_eq] at h
      obtain ⟨h1, h2⟩ := ih h.2 (by simpa using hlt)
      refine ⟨?_, h2⟩
      simp [List.take_succ_cons, h.1, h1]

theorem cutB_none_of_clean {sep bs : List Nat} (h : hasOcc sep bs = false) :
    cutB sep bs = none := by
  induction bs with
  | nil => rfl
  | cons b bs ih =>
    simp only [hasOcc, Bool.or_eq_false_iff] at h
    simp [cutB, h.1, ih h.2]

theorem cutB_some_lt {sep bs be af : List Nat} (hsep : sep ≠ [])
    (h : cutB sep bs = some (be, af)) : af.length < bs.length := by
  induction bs generalizing be with
  | nil => simp [cutB] at h
  | cons b bs ih =>
    simp only [cutB] at h
    split at h
    · rename_i hl
      have hle := isLead_length hl
      have hsep1 : 1 ≤ sep.length := by
        cases sep with
        | nil => exact absurd rfl hsep
        | cons _ _ => simp
      simp only [Option.some.injEq, Prod.mk.injEq] at h
      rw [← h.2, List.length_drop]
      simp only [List.length_cons] at hle ⊢
      omega
    · match hrec : cutB sep bs with
      | none => rw [hrec] at h; simp at h
      | some p =>
        rw [hrec] at h
        simp at h
        have := @ih p.1 (by rw [hrec, ← h.2])
        simp only [List.length_cons]
        omega

/-- `sep` does not overlap a shifted copy of itself (true of both NALU
start-code delimiters); this is what makes boundary matches across a
`span ++ delimiter` junction impossible. -/
def NoSelfOverlap (sep : List Nat) : Prop :=
  ∀ k, k < sep.length → 0 < k → isLead (sep.drop k) sep = false

theorem cutB_clean_append {sep : List Nat} (xs ys : List Nat) (hsep : sep ≠ [])
    (hov : NoSelfOverlap sep) (hxs : hasOcc sep xs = false) :
    cutB sep (xs ++ sep ++ ys) = some (xs, ys) := by
  induction xs with
  | nil =>
    match sep, hsep with
    | a :: as, _ =>
      have hl : isLead (a :: as) (a :: (as ++ ys)) = true := by
        have := isLead_self_append (a :: as) ys
        simpa using this
      simp only [List.nil_append, List.cons_append, cutB, List.append_eq, hl,
        if_true, List.length_cons, List.drop_succ_cons, List.drop_left]
  | cons x xs ih =>
    simp only [hasOcc, Bool.or_eq_false_iff] at hxs
    have hnl : isLead sep (x :: (xs ++ sep ++ ys)) = false := by
      have hshape : x :: (xs ++ sep ++ ys) = (x :: xs) ++ sep ++ ys := by
        simp [List.append_assoc]
      rw [hshape]
      by_cases hlen : sep.length ≤ (x :: xs).length
      · rw [List.append_assoc, isLead_append_left _ hlen]
        exact hxs.1
      · by_contra hcon
        rw [Bool.not_eq_false] at hcon
        rw [List.append_assoc] at hcon
        obtain ⟨-, h2⟩ := isLead_append_long hcon (by omega)
        have hlen2 : (sep.drop (x :: xs).length).length ≤ sep.length := by
          simp [List.length_drop]
        rw [isLead_append_left _ hlen2] at h2
        have := hov (x :: xs).length (by omega) (by simp)
        rw [this] at h2
        exact Bool.false_ne_true h2
    simp only [List.cons_append, List.append_eq, cutB, Bool.false_eq_true]
    rw [ih hxs.2, hnl]
    rfl

/-- `codec.NALU_Delimiter1`, the 3-byte Annex-B start code.
Modelled from the spec: `3-byte and 4-byte start-code forms`. -/
def NALU_Delimiter1 : List Nat := [0, 0, 1]

/-- `codec.NALU_Delimiter2`, the 4-byte Annex-B start code. -/
def NALU_Delimiter2 : List Nat := [0, 0, 0, 1]

/-- `common.NALUSlice`: one NALU held as a list of byte fragments. -/
abbrev NALUSlice := List (List Nat)

/-- The video frame being assembled (`common.AVFrame[NALUSlice]`), restricted
to the fields `track/video.go` reads and writes.  `FLV` abstracts the
memoized container tag to a presence flag (its byte layout is out of the
spec's scope). -/
structure AVFrame where
  SeqInTrack : Nat
  PTS : Nat
  DTS : Nat
  IFrame : Bool
  Raw : List NALUSlice
  AVCC : Option (List (List Nat))
  FLV : Bool
deriving DecidableEq

/-- The zero / reset frame (`AVFrame.Reset` recycles a slot to this state). -/
def AVFrame.reset : AVFrame :=
  { SeqInTrack := 0, PTS := 0, DTS := 0, IFrame := false, Raw := [],
    AVCC := none, FLV := false }

/-- Modelled from the spec: `Media.WriteSlice` appends one NALU slice to the
Frame currently being assembled. -/
def WriteSlice (v : AVFrame) (s : NALUSlice) : AVFrame :=
  { v with Raw := v.Raw ++ [s] }

/-- `Video.writeAnnexBSlice`: split a byte span on the 3-byte start code,
appending each non-empty piece as a single-fragment NALU slice; a span with
no further delimiter is appended whole. -/
def writeAnnexBSlice (v : AVFrame) (annexb : List Nat) : AVFrame :=
  match h : cutB NALU_Delimiter1 annexb with
  | none => if annexb = [] then v else WriteSlice v [annexb]
  | some (be, af) =>
    writeAnnexBSlice (if be = [] then v else WriteSlice v [be]) af
termination_by annexb.length
decreasing_by
  exact cutB_some_lt (by decide) h

/-- `Video.WriteAnnexB`: split the access unit on the 4-byte start code,
handing each piece to `writeAnnexBSlice`; when no delimiter remains, the
rest is processed as a trailing span and, if the frame now holds payload,
the supplied PTS/DTS are stamped on it. -/
def WriteAnnexB (pts dts : Nat) (v : AVFrame) (frame : List Nat) : AVFrame :=
  match h : cutB NALU_Delimiter2 frame with
  | none =>
    if frame = [] then v
    else
      let v' := writeAnnexBSlice v frame
      if v'.Raw.length > 0 then { v' with PTS := pts, DTS := dts } else v'
  | some (be, af) =>
    WriteAnnexB pts dts (if be = [] then v else writeAnnexBSlice v be) af
termination_by frame.length
decreasing_by
  exact cutB_some_lt (by decide) h

theorem noSelfOverlap_D1 : NoSelfOverlap NALU_Delimiter1 := by
  intro k hk h0
  have hk3 : k < 3 := by simpa [NALU_Delimiter1] using hk
  interval_cases k <;> decide

theorem noSelfOverlap_D2 : NoSelfOverlap NALU_Delimiter2 := by
  intro k hk h0
  have hk4 : k < 4 := by simpa [NALU_Delimiter2] using hk
  interval_cases k <;> decide

/-- A sequence of 3-byte-delimited NALU spans, as Annex-B bytes. -/
def encodeD3 (ds : List (List Nat)) : List Nat :=
  (ds.map (fun s => NALU_Delimiter1 ++ s)).flatten

theorem writeAnnexBSlice_spans (ds : List (List Nat)) :
    ∀ (lead : List Nat) (v : AVFrame),
      hasOcc NALU_Delimiter1 lead = false →
      (∀ s ∈ ds, hasOcc NALU_Delimiter1 s = false ∧ s ≠ []) →
      writeAnnexBSlice v (lead ++ encodeD3 ds) =
        { v with Raw := v.Raw ++
            ((if lead = [] then [] else [[lead]]) ++ ds.map (fun s => [s])) } := by
  induction ds with
  | nil =>
    intro lead v hlead _
    have hcut : cutB NALU_Delimiter1 (lead ++ encodeD3 []) = none := by
      have he : encodeD3 [] = [] := rfl
      rw [he, List.append_nil]
      exact cutB_none_of_clean hlead
    rw [writeAnnexBSlice]
    split
    · by_cases hl : lead = []
      · subst hl
        simp [encodeD3]
      · have hne : lead ++ encodeD3 [] ≠ [] := by simp [encodeD3, hl]
        simp [hne, hl, WriteSlice, encodeD3]
    · rename_i be af heq
      rw [hcut] at heq
      cases heq
  | cons s ds ih =>
    intro lead v hlead hds
    have hs := hds s (by simp)
    have hshape : lead ++ encodeD3 (s :: ds) =
        lead ++ NALU_Delimiter1 ++ (s ++ encodeD3 ds) := by
      simp [encodeD3, List.append_assoc]
    have hcut : cutB NALU_Delimiter1 (lead ++ encodeD3 (s :: ds)) =
        some (lead, s ++ encodeD3 ds) := by
      rw [hshape]
      exact cutB_clean_append lead _ (by decide) noSelfOverlap_D1 hlead
    rw [writeAnnexBSlice]
    split
    · rename_i heq
      rw [hcut] at heq
      cases heq
    · rename_i be af heq
      rw [hcut] at heq
      simp only [Option.some.injEq, Prod.mk.injEq] at heq
      obtain ⟨hbe, haf⟩ := heq
      subst hbe
      subst haf
      rw [ih s (if lead = [] then v else WriteSlice v [lead]) hs.1
        (fun x hx => hds x (by simp [hx]))]
      by_cases hl : lead = []
      · simp [hl, hs.2]
      · simp [hl, hs.2, WriteSlice, List.append_assoc]

theorem hasOcc_cons_of (sep : List Nat) (b : Nat) {bs : List Nat}
    (h : hasOcc sep bs = true) : hasOcc sep (b :: bs) = true := by
  simp [hasOcc, h]

theorem hasOcc_shift {a : Nat} {sep bs : List Nat}
    (h : hasOcc (a :: sep) bs = true) : hasOcc sep bs = true := by
  induction bs with
  | nil => simp [hasOcc, isLead] at h
  | cons b bs ih =>
    simp only [hasOcc, Bool.or_eq_true] at h ⊢
    rcases h with h | h
    · match bs, h with
      | b' :: bs', h =>
        simp only [isLead, Bool.and_eq_true] at h
        right
        simp [hasOcc, h.2]
      | [], h =>
        simp only [isLead] at h
        rcases sep with - | ⟨c, cs⟩
        · simp [isLead]
        · simp [Bool.and_eq_true, isLead] at h
    · exact Or.inr (ih h)

theorem hasOcc_append_false {sep : List Nat} (xs ys : List Nat)
    (hxs : hasOcc sep xs = false) (hys : hasOcc sep ys = false)
    (hj : ∀ j, j < xs.length → xs.length < j + sep.length →
      isLead sep (xs.drop j ++ ys) = false) :
    hasOcc sep (xs ++ ys) = false := by
  induction xs with
  | nil => simpa using hys
  | cons x xs ih =>
    simp only [hasOcc, Bool.or_eq_false_iff] at hxs ⊢
    constructor
    · by_cases hlen : sep.length ≤ (x :: xs).length
      · have h1 := @isLead_append_left sep (x :: xs) ys hlen
        simp only [List.cons_append, List.append_eq] at h1 ⊢
        rw [h1]
        exact hxs.1
      · have := hj 0 (by simp) (by omega)
        simpa using this
    · exact ih hxs.2 (fun j hj1 hj2 => by
        have := hj (j + 1) (by simpa using hj1) (by simp only [List.length_cons]; omega)
        simpa using this)

theorem hasOccD4_of_D1 {l : List Nat} (h : hasOcc NALU_Delimiter1 l = false) :
    hasOcc NALU_Delimiter2 l = false := by
  by_contra hc
  rw [Bool.not_eq_false] at hc
  have hc' : hasOcc (0 :: NALU_Delimiter1) l = true := hc
  rw [hasOcc_shift hc'] at h
  exact absurd h (by decide)

theorem d3_d4_junction (piece : List Nat) :
    ∀ j, j < NALU_Delimiter1.length →
      isLead NALU_Delimiter2 (NALU_Delimiter1.drop j ++ piece) = false := by
  intro j hj1
  have hj3 : j < 3 := by simpa [NALU_Delimiter1] using hj1
  interval_cases j <;> simp [NALU_Delimiter1, NALU_Delimiter2, isLead]

theorem span_d3_junction (lead piece : List Nat) (hlast : lead.getLast? ≠ some 0) :
    ∀ j, j < lead.length → lead.length < j + NALU_Delimiter2.length →
      isLead NALU_Delimiter2 (lead.drop j ++ (NALU_Delimiter1 ++ piece)) = false := by
  intro j hj1 hj2
  have hlen : (lead.drop j).length = lead.length - j := List.length_drop j lead
  have hk3 : lead.length < j + 4 := by simpa [NALU_Delimiter2] using hj2
  cases hdrop : lead.drop j with
  | nil =>
    rw [hdrop] at hlen
    simp at hlen
    omega
  | cons a t =>
    cases t with
    | nil =>
      have ha : lead.getLast? = some a := by
        conv_lhs => rw [← List.take_append_drop j lead]
        rw [hdrop]
        exact List.getLast?_append_of_ne_nil _ (by simp)
      have hane : ¬(0 = a) := fun hez => hlast (by rw [ha, ← hez])
      simp [NALU_Delimiter1, NALU_Delimiter2, isLead, hane]
    | cons b t2 =>
      cases t2 with
      | nil => simp [NALU_Delimiter1, NALU_Delimiter2, isLead]
      | cons c t3 =>
        cases t3 with
        | nil => simp [NALU_Delimiter1, NALU_Delimiter2, isLead]
        | cons d t4 =>
          rw [hdrop] at hlen
          simp at hlen
          omega

theorem pieceClean (ds : List (List Nat)) :
    ∀ lead, hasOcc NALU_Delimiter1 lead = false → lead.getLast? ≠ some 0 →
      (∀ s ∈ ds, hasOcc NALU_Delimiter1 s = false ∧ s.getLast? ≠ some 0) →
      hasOcc NALU_Delimiter2 (lead ++ encodeD3 ds) = false := by
  induction ds with
  | nil =>
    intro lead hl _ _
    have he : encodeD3 [] = [] := rfl
    rw [he, List.append_nil]
    exact hasOccD4_of_D1 hl
  | cons s ds ih =>
    intro lead hl hlast hds
    have hs := hds s (by simp)
    have hshape : lead ++ encodeD3 (s :: ds) =
        lead ++ (NALU_Delimiter1 ++ (s ++ encodeD3 ds)) := by
      simp [encodeD3, List.append_assoc]
    rw [hshape]
    have hinner : hasOcc NALU_Delimiter2 (NALU_Delimiter1 ++ (s ++ encodeD3 ds)) = false := by
      apply hasOcc_append_false
      · decide
      · exact ih s hs.1 hs.2 (fun x hx => hds x (by simp [hx]))
      · intro j hj1 _
        exact d3_d4_junction _ j hj1
    apply hasOcc_append_false lead _ (hasOccD4_of_D1 hl) hinner
    intro j hj1 hj2
    exact span_d3_junction lead (s ++ encodeD3 ds) hlast j hj1 hj2

/-- A well-formed Annex-B NALU span: non-empty, free of the 3-byte start
code (hence also of the 4-byte one), and not ending in a zero byte (which
would fuse with a following 3-byte start code into the 4-byte form). -/
def CleanSpan (s : List Nat) : Prop :=
  s ≠ [] ∧ hasOcc NALU_Delimiter1 s = false ∧ s.getLast? ≠ some 0

instance (s : List Nat) : Decidable (CleanSpan s) := by
  unfold CleanSpan
  infer_instance

/-- An Annex-B access unit as a sequence of delimiter-prefixed spans: each
chunk is a span preceded by the 4-byte (`true`) or 3-byte (`false`)
start-code form. -/
def annexBChunks (chunks : List (Bool × List Nat)) : List Nat :=
  (chunks.map
    (fun c => (if c.1 then NALU_Delimiter2 else NALU_Delimiter1) ++ c.2)).flatten

theorem encodeD3_append (xs ys : List (List Nat)) :
    encodeD3 (xs ++ ys) = encodeD3 xs ++ encodeD3 ys := by
  simp [encodeD3]

theorem encodeD3_ne_nil {pre : List (List Nat)} (h : pre ≠ []) :
    encodeD3 pre ≠ [] := by
  match pre, h with
  | s :: pre', _ => simp [encodeD3, NALU_Delimiter1]

theorem WriteAnnexB_spans_aux (chunks : List (Bool × List Nat)) :
    ∀ (pre : List (List Nat)) (lead : List Nat) (v : AVFrame) (pts dts : Nat),
      hasOcc NALU_Delimiter1 lead = false →
      lead.getLast? ≠ some 0 →
      (∀ s ∈ pre, CleanSpan s) →
      (∀ c ∈ chunks, CleanSpan c.2) →
      (lead ≠ [] ∨ pre ≠ [] ∨ chunks ≠ []) →
      WriteAnnexB pts dts v (lead ++ encodeD3 pre ++ annexBChunks chunks) =
        { v with
          Raw := v.Raw ++ ((if lead = [] then [] else [[lead]]) ++
            pre.map (fun s => [s]) ++ chunks.map (fun c => [c.2])),
          PTS := pts, DTS := dts } := by
  induction chunks with
  | nil =>
    intro pre lead v pts dts hl hlast hpre _ hne
    have hpre' : ∀ s ∈ pre, hasOcc NALU_Delimiter1 s = false ∧ s.getLast? ≠ some 0 :=
      fun s hs => ⟨(hpre s hs).2.1, (hpre s hs).2.2⟩
    have hcut : cutB NALU_Delimiter2 (lead ++ encodeD3 pre ++ annexBChunks []) = none := by
      have hz : annexBChunks [] = [] := rfl
      rw [hz, List.append_nil]
      exact cutB_none_of_clean (pieceClean pre lead hl hlast hpre')
    rw [WriteAnnexB]
    split
    · rename_i hnone
      have hinput : lead ++ encodeD3 pre ++ annexBChunks [] ≠ [] := by
        have hz : annexBChunks [] = [] := rfl
        rw [hz, List.append_nil]
        rcases hne with h | h | h
        · simp [h]
        · simp [encodeD3_ne_nil h]
        · exact absurd rfl h
      rw [if_neg hinput]
      have hslice : writeAnnexBSlice v (lead ++ encodeD3 pre ++ annexBChunks []) =
          { v with Raw := v.Raw ++
              ((if lead = [] then [] else [[lead]]) ++ pre.map (fun s => [s])) } := by
        have hz : annexBChunks [] = [] := rfl
        rw [hz, List.append_nil]
        exact writeAnnexBSlice_spans pre lead v hl
          (fun s hs => ⟨(hpre s hs).2.1, (hpre s hs).1⟩)
      rw [hslice]
      have hlen : (v.Raw ++ ((if lead = [] then [] else [[lead]]) ++
          pre.map (fun s => [s]))).length > 0 := by
        rcases hne with h | h | h
        · simp [h]
        · have hple : 0 < pre.length := List.length_pos.mpr h
          simp
          omega
        · exact absurd rfl h
      simp only [hlen, if_pos]
      simp [List.append_assoc]
    · rename_i be af heq
      rw [hcut] at heq
      cases heq
  | cons c rest ih =>
    intro pre lead v pts dts hl hlast hpre hchunks hne
    match c with
    | (false, s) =>
      have hcs := hchunks (false, s) (by simp)
      have hshape : lead ++ encodeD3 pre ++ annexBChunks ((false, s) :: rest) =
          lead ++ encodeD3 (pre ++ [s]) ++ annexBChunks rest := by
        simp [annexBChunks, encodeD3_append, encodeD3, List.append_assoc]
      rw [hshape]
      rw [ih (pre ++ [s]) lead v pts dts hl hlast
        (fun x hx => by
          rcases List.mem_append.mp hx with h | h
          · exact hpre x h
          · simp at h; subst h; exact hcs)
        (fun x hx => hchunks x (by simp [hx]))
        (Or.inr (Or.inl (by simp)))]
      simp [List.append_assoc]
    | (true, s) =>
      have hcs := hchunks (true, s) (by simp)
      have hpre' : ∀ x ∈ pre, hasOcc NALU_Delimiter1 x = false ∧ x.getLast? ≠ some 0 :=
        fun x hx => ⟨(hpre x hx).2.1, (hpre x hx).2.2⟩
      have hshape : lead ++ encodeD3 pre ++ annexBChunks ((true, s) :: rest) =
          (lead ++ encodeD3 pre) ++ NALU_Delimiter2 ++ (s ++ annexBChunks rest) := by
        simp [annexBChunks, List.append_assoc]
      have hcut : cutB NALU_Delimiter2 (lead ++ encodeD3 pre ++ annexBChunks ((true, s) :: rest)) =
          some (lead ++ encodeD3 pre, s ++ annexBChunks rest) := by
        rw [hshape]
        exact cutB_clean_append _ _ (by decide) noSelfOverlap_D2
          (pieceClean pre lead hl hlast hpre')
      rw [WriteAnnexB]
      split
      · rename_i heq
        rw [hcut] at heq
        cases heq
      · rename_i be af heq
        rw [hcut] at heq
        simp only [Option.some.injEq, Prod.mk.injEq] at heq
        obtain ⟨hbe, haf⟩ := heq
        subst hbe
        subst haf
        have hv' : (if lead ++ encodeD3 pre = [] then v
              else writeAnnexBSlice v (lead ++ encodeD3 pre)) =
            { v with Raw := v.Raw ++
                ((if lead = [] then [] else [[lead]]) ++ pre.map (fun x => [x])) } := by
          by_cases hP : lead ++ encodeD3 pre = []
          · have hl0 : lead = [] := by
              cases lead with
              | nil => rfl
              | cons a as => simp at hP
            have hp0 : pre = [] := by
              by_contra hp
              exact encodeD3_ne_nil hp (by simpa [hl0] using hP)
            simp [hP, hl0, hp0, encodeD3]
          · rw [if_neg hP]
            rw [writeAnnexBSlice_spans pre lead v hl
              (fun x hx => ⟨(hpre x hx).2.1, (hpre x hx).1⟩)]
        rw [hv']
        have hs' : s ++ annexBChunks rest = s ++ encodeD3 [] ++ annexBChunks rest := by
          simp [encodeD3]
        rw [hs']
        rw [ih [] s _ pts dts hcs.2.1 hcs.2.2 (by simp)
          (fun x hx => hchunks x (by simp [hx])) (Or.inl hcs.1)]
        simp [hcs.1, List.append_assoc]

/-- **C6.**  One `WriteAnnexB` call on a delimiter-separated Annex-B access
unit (any mix of 3-byte and 4-byte start-code forms, an optional leading
span before the first delimiter, well-formed spans) appends exactly the
spans, with the delimiters stripped and in original order, as the NALU
slices of the frame being assembled; the remaining bytes after the last
delimiter are appended as a trailing NALU, and since the frame then holds
payload the supplied PTS/DTS are stamped on it. -/
theorem WriteAnnexB_splits_on_delimiters (chunks : List (Bool × List Nat))
    (lead : List Nat) (v : AVFrame) (pts dts : Nat)
    (hl : hasOcc NALU_Delimiter1 lead = false)
    (hlast : lead.getLast? ≠ some 0)
    (hchunks : ∀ c ∈ chunks, CleanSpan c.2)
    (hne : lead ≠ [] ∨ chunks ≠ []) :
    WriteAnnexB pts dts v (lead ++ annexBChunks chunks) =
      { v with
        Raw := v.Raw ++ ((if lead = [] then [] else [[lead]]) ++
          chunks.map (fun c => [c.2])),
        PTS := pts, DTS := dts } := by
  have h := WriteAnnexB_spans_aux chunks [] lead v pts dts hl hlast (by simp)
    hchunks (by rcases hne with h | h; exacts [Or.inl h, Or.inr (Or.inr h)])
  have hz : encodeD3 [] = [] := rfl
  rw [hz, List.append_nil] at h
  simpa using h

/-- An SPS-like span, a PPS-like span and an IDR-slice-like span for the
concrete Annex-B scenario (contents arbitrary, wire-format-clean). -/
def exSPS : List Nat := [0x67, 0x42]

def exPPS : List Nat := [0x68, 0xCE]

def exIDR : List Nat := [0x65, 0x88]

/-- `00 00 00 01 SPS 00 00 00 01 PPS 00 00 00 01 IDR`, the spec's scenario
input. -/
def exAnnexB : List Nat := annexBChunks [(true, exSPS), (true, exPPS), (true, exIDR)]

theorem WriteAnnexB_splits_witness :
    (hasOcc NALU_Delimiter1 [] = false) ∧
    (([] : List Nat).getLast? ≠ some 0) ∧
    (∀ c ∈ [(true, exSPS), (true, exPPS), (true, exIDR)], CleanSpan c.2) ∧
    (([] : List Nat) ≠ [] ∨ [(true, exSPS), (true, exPPS), (true, exIDR)] ≠ []) ∧
    WriteAnnexB 900 450 AVFrame.reset ([] ++ exAnnexB) =
      { AVFrame.reset with
        Raw := AVFrame.reset.Raw ++ ((if ([] : List Nat) = [] then [] else [[[]]]) ++
          [(true, exSPS), (true, exPPS), (true, exIDR)].map (fun c => [c.2])),
        PTS := 900, DTS := 450 } :=
  ⟨by decide, by decide, by decide, by decide,
    WriteAnnexB_splits_on_delimiters [(true, exSPS), (true, exPPS), (true, exIDR)]
      [] AVFrame.reset 900 450 (by decide) (by decide) (by decide) (by decide)⟩

theorem putBE_length (w m : Nat) : (putBE w m).length = w := by
  simp [putBE]

theorem putBE_succ (w m : Nat) :
    putBE (w + 1) m = m / 256 ^ w % 256 :: putBE w (m % 256 ^ w) := by
  simp only [putBE, List.range_succ_eq_map, List.map_cons, List.map_map]
  simp only [List.cons.injEq]
  refine ⟨by simp, List.map_congr_left ?_⟩
  intro j hj
  simp only [Function.comp_apply]
  have hjw : j < w := List.mem_range.mp hj
  have hk : w + 1 - 1 - (j + 1) = w - 1 - j := by omega
  rw [hk]
  have hwk : w - 1 - j + (w - (w - 1 - j)) = w := by omega
  have h1 : m % 256 ^ w / 256 ^ (w - 1 - j) =
      m / 256 ^ (w - 1 - j) % 256 ^ (w - (w - 1 - j)) := by
    rw [Nat.div_mod_eq_mod_mul_div, ← pow_add, hwk]
  rw [h1, Nat.mod_mod_of_dvd _ (dvd_pow_self 256 (by omega))]

theorem readBE_aux (w : Nat) :
    ∀ (r acc : Nat), r < 256 ^ w →
      (putBE w r).foldl (fun a b => a * 256 + b % 256) acc = acc * 256 ^ w + r := by
  induction w with
  | zero =>
    intro r acc hr
    simp only [pow_zero, Nat.lt_one_iff] at hr
    subst hr
    simp [putBE]
  | succ w ih =>
    intro r acc hr
    rw [putBE_succ, List.foldl_cons]
    rw [ih (r % 256 ^ w) _ (Nat.mod_lt _ (by positivity))]
    have hd : r / 256 ^ w % 256 = r / 256 ^ w := by
      apply Nat.mod_eq_of_lt
      have : r < 256 ^ w * 256 := by
        calc r < 256 ^ (w + 1) := hr
        _ = 256 ^ w * 256 := by ring
      exact Nat.div_lt_of_lt_mul this
    have hsplit : 256 ^ w * (r / 256 ^ w) + r % 256 ^ w = r := Nat.div_add_mod r (256 ^ w)
    have hpow : 256 ^ (w + 1) = 256 ^ w * 256 := by ring
    calc (acc * 256 + r / 256 ^ w % 256 % 256) * 256 ^ w + r % 256 ^ w
        = (acc * 256 + r / 256 ^ w) * 256 ^ w + r % 256 ^ w := by
          rw [Nat.mod_mod_of_dvd _ dvd_rfl, hd]
      _ = acc * (256 ^ w * 256) + (256 ^ w * (r / 256 ^ w) + r % 256 ^ w) := by ring
      _ = acc * 256 ^ (w + 1) + r := by rw [hsplit, ← hpow]

theorem readBE_putBE {w m : Nat} (h : m < 256 ^ w) : readBE (putBE w m) = m := by
  have := readBE_aux w m 0 h
  simpa [readBE] using this

/-- The feature flags (`config.Global`): materialize the AVCC form, the
FLV-tag form. -/
structure EngineConfig where
  EnableAVCC : Bool
  EnableFLV : Bool
deriving DecidableEq

/-- The AVCC-completion block of `Video.Flush` (source lines 106-120): when
the frame holds data, no AVCC form is memoized yet, and either feature flag
is on, build it once — a first byte equal to the codec id bitwise-or 0x10
for a keyframe / 0x20 otherwise, the byte `1` (AVC NALU packet type), the
3-byte big-endian composition-time offset `(PTS-DTS)/90` in unsigned
32-bit arithmetic, then, per NALU, a 4-byte big-endian length and the
NALU's fragments. -/
def flushAVCC (cfg : EngineConfig) (CodecID : Nat) (v : AVFrame) : AVFrame :=
  if v.AVCC = none ∧ (cfg.EnableAVCC || cfg.EnableFLV) = true then
    let b0 := CodecID ||| (if v.IFrame then 0x10 else 0x20)
    let cts := (v.PTS + 2 ^ 32 - v.DTS) % 2 ^ 32 / 90
    let b := [b0, 1] ++ putBE 3 cts
    let bufs := [b] ++ v.Raw.flatMap (fun nalu => putBE 4 (SizeOfBuffers nalu) :: nalu)
    { v with AVCC := some bufs }
  else v

/-- The NALU-extraction loop of `Video.WriteAVCC` (source lines 87-96), on
the bytes after the 5-byte AVCC frame header: while more than
`nalulenSize` bytes remain, read a big-endian length prefix; if the
declared NALU fits, append it and continue past it; otherwise log the
error and stop, keeping what was appended.  Fuel bounds the recursion; the
top-level call always supplies enough. -/
def WriteAVCC.parse (n : Nat) : Nat → List Nat → List NALUSlice × Bool
  | 0, _ => ([], false)
  | fuel + 1, nalus =>
    if n < nalus.length then
      let nalulen := readBE (nalus.take n)
      if nalulen + n ≤ nalus.length then
        let r := WriteAVCC.parse n fuel (nalus.drop (nalulen + n))
        ([(nalus.drop n).take nalulen] :: r.1, r.2)
      else ([], true)
    else ([], false)

/-- `Video.WriteAVCC`: store the AVCC frame (via `Media.WriteAVCC`, out of
scope for the NALU list) and extract the length-prefixed NALUs after the
5-byte frame header, returning the appended NALU slices and whether the
length error was hit. -/
def WriteAVCC (n : Nat) (frame : List Nat) : List NALUSlice × Bool :=
  WriteAVCC.parse n (frame.length + 1) (frame.drop 5)

/-- The length-prefixed wire form of a NALU sequence with an `n`-byte
big-endian length before each NALU (the shape `flushAVCC` emits after its
5-byte header when each NALU is a single span). -/
def avccEncodeN (n : Nat) (nalus : List (List Nat)) : List Nat :=
  (nalus.map (fun s => putBE n s.length ++ s)).flatten

theorem avccEncodeN_cons (n : Nat) (s : List Nat) (rest : List (List Nat)) :
    avccEncodeN n (s :: rest) = putBE n s.length ++ (s ++ avccEncodeN n rest) := by
  simp [avccEncodeN, List.append_assoc]

theorem WriteAVCC.parse_spec (n : Nat) (hn : 1 ≤ n) (nalus : List (List Nat)) :
    ∀ (trail : List Nat) (fuel : Nat),
      (∀ s ∈ nalus, s ≠ [] ∧ s.length < 256 ^ n) →
      (avccEncodeN n nalus ++ trail).length < fuel →
      ((trail.length ≤ n →
        WriteAVCC.parse n fuel (avccEncodeN n nalus ++ trail) =
          (nalus.map (fun s => [s]), false)) ∧
      (n < trail.length → trail.length < readBE (trail.take n) + n →
        WriteAVCC.parse n fuel (avccEncodeN n nalus ++ trail) =
          (nalus.map (fun s => [s]), true))) := by
  induction nalus with
  | nil =>
    intro trail fuel _ hfuel
    have hz : avccEncodeN n [] = [] := rfl
    rw [hz, List.nil_append] at hfuel ⊢
    match fuel, hfuel with
    | fuel + 1, _ =>
      constructor
      · intro hle
        rw [WriteAVCC.parse]
        rw [if_neg (by omega)]
        simp
      · intro hgt hover
        rw [WriteAVCC.parse]
        rw [if_pos hgt, if_neg (by omega)]
        simp
  | cons s rest ih =>
    intro trail fuel hwf hfuel
    have hs := hwf s (by simp)
    rw [avccEncodeN_cons, List.append_assoc] at hfuel ⊢
    have hlenBE : (putBE n s.length).length = n := putBE_length ..
    match fuel, hfuel with
    | fuel + 1, hfuel =>
      have htake : (putBE n s.length ++ (s ++ avccEncodeN n rest ++ trail)).take n =
          putBE n s.length := List.take_left' hlenBE
      have hread : readBE ((putBE n s.length ++ (s ++ avccEncodeN n rest ++ trail)).take n) =
          s.length := by
        rw [htake]
        exact readBE_putBE hs.2
      have hlen : (putBE n s.length ++ (s ++ avccEncodeN n rest ++ trail)).length =
          n + (s.length + ((avccEncodeN n rest).length + trail.length)) := by
        simp [hlenBE, List.append_assoc]
      have hdropn : (putBE n s.length ++ (s ++ avccEncodeN n rest ++ trail)).drop n =
          s ++ avccEncodeN n rest ++ trail := List.drop_left' hlenBE
      have hextract : ((putBE n s.length ++ (s ++ avccEncodeN n rest ++ trail)).drop n).take
          s.length = s := by
        rw [hdropn, List.append_assoc, List.take_left]
      have hdropfull : (putBE n s.length ++ (s ++ avccEncodeN n rest ++ trail)).drop
          (s.length + n) = avccEncodeN n rest ++ trail := by
        have hcomb : putBE n s.length ++ (s ++ avccEncodeN n rest ++ trail) =
            (putBE n s.length ++ s) ++ (avccEncodeN n rest ++ trail) := by
          simp [List.append_assoc]
        rw [hcomb]
        have hlc : (putBE n s.length ++ s).length = s.length + n := by
          simp [hlenBE]
          omega
        exact List.drop_left' hlc
      have hslen : 1 ≤ s.length := by
        cases hse : s with
        | nil => exact absurd hse hs.1
        | cons a t => simp
      have hstep : WriteAVCC.parse n (fuel + 1)
          (putBE n s.length ++ (s ++ avccEncodeN n rest ++ trail)) =
          ([s] :: (WriteAVCC.parse n fuel (avccEncodeN n rest ++ trail)).1,
           (WriteAVCC.parse n fuel (avccEncodeN n rest ++ trail)).2) := by
        rw [WriteAVCC.parse]
        rw [if_pos (by rw [hlen]; omega)]
        simp only [hread]
        rw [if_pos (by rw [hlen]; omega)]
        rw [hextract, hdropfull]
      have hfuel' : (avccEncodeN n rest ++ trail).length < fuel := by
        rw [hlen] at hfuel
        simp only [List.length_append]
        omega
      obtain ⟨ih1, ih2⟩ := ih trail fuel (fun x hx => hwf x (by simp [hx])) hfuel'
      constructor
      · intro hle
        rw [hstep, ih1 hle]
        simp
      · intro hgt hover
        rw [hstep, ih2 hgt hover]
        simp

/-- **C10.**  `WriteAVCC` stops extracting as soon as the unparsed remainder
after the 5-byte frame header holds `nalulenSize` bytes or fewer — such
trailing bytes are silently discarded with no error — and reports the
error (stopping the parse while keeping the already-appended NALUs) only
when a complete length prefix declares a NALU extending past the end of
the buffer. -/
theorem WriteAVCC_trailing_and_overrun (n : Nat) (hn : 1 ≤ n) (h5 : List Nat)
    (hl5 : h5.length = 5) (nalus : List (List Nat)) (trail : List Nat)
    (hwf : ∀ s ∈ nalus, s ≠ [] ∧ s.length < 256 ^ n) :
    (trail.length ≤ n →
      WriteAVCC n (h5 ++ (avccEncodeN n nalus ++ trail)) =
        (nalus.map (fun s => [s]), false)) ∧
    (n < trail.length → trail.length < readBE (trail.take n) + n →
      WriteAVCC n (h5 ++ (avccEncodeN n nalus ++ trail)) =
        (nalus.map (fun s => [s]), true)) := by
  unfold WriteAVCC
  have hdrop : (h5 ++ (avccEncodeN n nalus ++ trail)).drop 5 =
      avccEncodeN n nalus ++ trail := List.drop_left' hl5
  rw [hdrop]
  exact WriteAVCC.parse_spec n hn nalus trail _ hwf
    (by simp only [List.length_append]; omega)

theorem WriteAVCC_trailing_and_overrun_witness :
    ((1 : Nat) ≤ 4 ∧ ([0x17, 1, 0, 0, 0] : List Nat).length = 5 ∧
      (∀ s ∈ [[0x65, 0x88]], s ≠ ([] : List Nat) ∧ s.length < 256 ^ 4) ∧
      ([0xAA, 0xBB] : List Nat).length ≤ 4 ∧
      WriteAVCC 4 ([0x17, 1, 0, 0, 0] ++
          (avccEncodeN 4 [[0x65, 0x88]] ++ [0xAA, 0xBB])) =
        ([[[0x65, 0x88]]], false)) ∧
    ((4 : Nat) < ([0, 0, 1, 0, 0x99] : List Nat).length ∧
      ([0, 0, 1, 0, 0x99] : List Nat).length <
        readBE (([0, 0, 1, 0, 0x99] : List Nat).take 4) + 4 ∧
      WriteAVCC 4 ([0x17, 1, 0, 0, 0] ++
          (avccEncodeN 4 [[0x65, 0x88]] ++ [0, 0, 1, 0, 0x99])) =
        ([[[0x65, 0x88]]], true)) :=
  ⟨⟨by decide, by decide, by decide, by decide,
    (WriteAVCC_trailing_and_overrun 4 (by decide) [0x17, 1, 0, 0, 0] (by decide)
      [[0x65, 0x88]] [0xAA, 0xBB] (by decide)).1 (by decide)⟩,
   ⟨by decide, by decide,
    (WriteAVCC_trailing_and_overrun 4 (by decide) [0x17, 1, 0, 0, 0] (by decide)
      [[0x65, 0x88]] [0, 0, 1, 0, 0x99] (by decide)).2 (by decide) (by decide)⟩⟩

theorem exScenario_frame :
    WriteAnnexB 0 0 AVFrame.reset exAnnexB =
      { AVFrame.reset with Raw := [[exSPS], [exPPS], [exIDR]], PTS := 0, DTS := 0 } := by
  have h := WriteAnnexB_spans_aux [(true, exSPS), (true, exPPS), (true, exIDR)] [] []
    AVFrame.reset 0 0 (by decide) (by decide) (by simp) (by decide) (by simp)
  have hz : encodeD3 [] = [] := rfl
  rw [hz] at h
  simpa [exAnnexB] using h

theorem flatten_flatMap_lenPrefix (raw : List NALUSlice) :
    (raw.flatMap (fun nalu => putBE 4 (SizeOfBuffers nalu) :: nalu)).flatten =
      (raw.map (fun nalu => putBE 4 (SizeOfBuffers nalu) ++ nalu.flatten)).flatten := by
  induction raw with
  | nil => rfl
  | cons x xs ih =>
    simp [List.flatMap_cons, List.flatten_append, ih, List.append_assoc]

/-- **C4 (amended).**  When the frame's AVCC form is not yet memoized and
AVCC or FLV generation is enabled, `Flush` builds it exactly once as: a
prefix byte equal to the codec id bitwise-or 0x10 for a keyframe / 0x20
otherwise, **the byte 1** (the AVC NALU packet-type byte — not a zero
byte), the 3-byte big-endian composition-time offset `(PTS-DTS)/90`
(computed in unsigned 32-bit arithmetic), then each NALU as a 4-byte
big-endian length followed by its bytes; a memoized form is left
untouched; and for the Annex-B SPS/PPS/IDR scenario with `pts = dts = 0`
the AVCC output begins `0x17 0x01 0x00 0x00 0x00` followed by the
length-prefixed NALUs. -/
theorem Flush_buildsAVCC :
    (∀ (cfg : EngineConfig) (cid : Nat) (v : AVFrame),
        v.AVCC = none → (cfg.EnableAVCC || cfg.EnableFLV) = true →
        (flushAVCC cfg cid v).AVCC.map List.flatten =
          some ([cid ||| (if v.IFrame then 0x10 else 0x20), 1] ++
            putBE 3 ((v.PTS + 2 ^ 32 - v.DTS) % 2 ^ 32 / 90) ++
            (v.Raw.map (fun nalu => putBE 4 (SizeOfBuffers nalu) ++ nalu.flatten)).flatten)) ∧
    (∀ (cfg : EngineConfig) (cid : Nat) (v : AVFrame) (x : List (List Nat)),
        v.AVCC = some x → flushAVCC cfg cid v = v) ∧
    ((flushAVCC ⟨true, false⟩ 7
        { WriteAnnexB 0 0 AVFrame.reset exAnnexB with IFrame := true }).AVCC.map
          List.flatten =
      some ([0x17, 0x01, 0x00, 0x00, 0x00] ++
        ([0, 0, 0, 2] ++ exSPS ++ ([0, 0, 0, 2] ++ exPPS ++ ([0, 0, 0, 2] ++ exIDR))))) := by
  refine ⟨?_, ?_, ?_⟩
  · intro cfg cid v h1 h2
    rw [flushAVCC, if_pos ⟨h1, h2⟩]
    simp only [Option.map_some']
    rw [List.flatten_append]
    simp only [List.flatten_cons, List.flatten_nil, List.append_nil]
    rw [flatten_flatMap_lenPrefix]
  · intro cfg cid v x h
    rw [flushAVCC, if_neg]
    simp [h]
  · rw [exScenario_frame]
    decide

/-- A frame with pending raw payload and no memoized AVCC form. -/
def exFrameRaw : AVFrame :=
  { AVFrame.reset with Raw := [[[0x65, 0x01]]], IFrame := true, PTS := 180, DTS := 90 }

/-- A frame whose AVCC form is already memoized. -/
def exFrameMemo : AVFrame := { AVFrame.reset with AVCC := some [[9, 9]] }

theorem Flush_buildsAVCC_witness :
    (exFrameRaw.AVCC = none ∧
      ((⟨true, false⟩ : EngineConfig).EnableAVCC ||
        (⟨true, false⟩ : EngineConfig).EnableFLV) = true ∧
      (flushAVCC ⟨true, false⟩ 7 exFrameRaw).AVCC.map List.flatten =
        some ([7 ||| (if exFrameRaw.IFrame then 0x10 else 0x20), 1] ++
          putBE 3 ((exFrameRaw.PTS + 2 ^ 32 - exFrameRaw.DTS) % 2 ^ 32 / 90) ++
          (exFrameRaw.Raw.map
            (fun nalu => putBE 4 (SizeOfBuffers nalu) ++ nalu.flatten)).flatten)) ∧
    (exFrameMemo.AVCC = some [[9, 9]] ∧
      flushAVCC ⟨true, true⟩ 7 exFrameMemo = exFrameMemo) :=
  ⟨⟨by decide, by decide,
    Flush_buildsAVCC.1 ⟨true, false⟩ 7 exFrameRaw (by decide) (by decide)⟩,
   ⟨by decide, Flush_buildsAVCC.2.1 ⟨true, true⟩ 7 exFrameMemo [[9, 9]] (by decide)⟩⟩

/-- **C4 counterexample.**  In the spec's own scenario the second byte of
the built AVCC form is `0x01`, not the claimed zero reserved byte: the
output begins `17 01 00 00 00`, not `17 00 00 00 00`. -/
theorem Flush_AVCC_secondByte_counterexample :
    (flushAVCC ⟨true, false⟩ 7
        { WriteAnnexB 0 0 AVFrame.reset exAnnexB with IFrame := true }).AVCC.map
      (fun bufs => bufs.flatten.take 5) = some [0x17, 0x01, 0x00, 0x00, 0x00] ∧
    ([0x17, 0x01, 0x00, 0x00, 0x00] : List Nat) ≠ [0x17, 0x00, 0x00, 0x00, 0x00] := by
  constructor
  · rw [exScenario_frame]
    decide
  · decide

theorem SizeOfBuffers_singleton (s : List Nat) : SizeOfBuffers [s] = s.length := by
  simp [SizeOfBuffers]

/-- **C5.**  Round-trip: for any frame assembled by Annex-B ingest from
delimiter-separated well-formed spans, flushing with AVCC generation
enabled memoizes an AVCC form whose bytes, re-parsed by `WriteAVCC` with
the conventional 4-byte NALU length prefix, yield exactly the frame's
ordered NALU slices, with no length error. -/
theorem WriteAnnexB_AVCC_roundtrip (chunks : List (Bool × List Nat))
    (pts dts cid : Nat) (cfg : EngineConfig)
    (hcfg : cfg.EnableAVCC = true)
    (hchunks : ∀ c ∈ chunks, CleanSpan c.2 ∧ c.2.length < 256 ^ 4)
    (hne : chunks ≠ []) :
    ∃ bufs,
      (flushAVCC cfg cid
          (WriteAnnexB pts dts AVFrame.reset (annexBChunks chunks))).AVCC = some bufs ∧
      WriteAVCC 4 bufs.flatten =
        ((WriteAnnexB pts dts AVFrame.reset (annexBChunks chunks)).Raw, false) := by
  have hframe : WriteAnnexB pts dts AVFrame.reset (annexBChunks chunks) =
      { AVFrame.reset with Raw := chunks.map (fun c => [c.2]), PTS := pts, DTS := dts } := by
    have h := WriteAnnexB_spans_aux chunks [] [] AVFrame.reset pts dts (by decide)
      (by decide) (by simp) (fun c hc => (hchunks c hc).1) (Or.inr (Or.inr hne))
    have hz : encodeD3 [] = [] := rfl
    rw [hz] at h
    simpa using h
  rw [hframe]
  rw [flushAVCC]
  rw [if_pos ⟨rfl, by simp [hcfg]⟩]
  refine ⟨_, rfl, ?_⟩
  have hflat : (([[cid ||| (if ({ AVFrame.reset with
        Raw := chunks.map (fun c => [c.2]), PTS := pts,
        DTS := dts } : AVFrame).IFrame then 0x10 else 0x20), 1] ++
          putBE 3 ((pts + 2 ^ 32 - dts) % 2 ^ 32 / 90)] ++
      (chunks.map (fun c => [c.2])).flatMap
        (fun nalu => putBE 4 (SizeOfBuffers nalu) :: nalu)).flatten) =
      ([cid ||| 0x20, 1] ++ putBE 3 ((pts + 2 ^ 32 - dts) % 2 ^ 32 / 90)) ++
        avccEncodeN 4 (chunks.map (fun c => c.2)) := by
    rw [List.flatten_append]
    simp only [List.flatten_cons, List.flatten_nil, List.append_nil]
    rw [flatten_flatMap_lenPrefix]
    have hmap : ((chunks.map (fun c => [c.2])).map
        (fun nalu => putBE 4 (SizeOfBuffers nalu) ++ nalu.flatten)) =
        (chunks.map (fun c => c.2)).map (fun s => putBE 4 s.length ++ s) := by
      simp [List.map_map, Function.comp_def, SizeOfBuffers_singleton]
    rw [hmap]
    rfl
  rw [hflat]
  have hb5 : ([cid ||| 0x20, 1] ++ putBE 3 ((pts + 2 ^ 32 - dts) % 2 ^ 32 / 90)).length = 5 := by
    simp [putBE_length]
  rw [WriteAVCC]
  have hdrop : (([cid ||| 0x20, 1] ++ putBE 3 ((pts + 2 ^ 32 - dts) % 2 ^ 32 / 90)) ++
      avccEncodeN 4 (chunks.map (fun c => c.2))).drop 5 =
      avccEncodeN 4 (chunks.map (fun c => c.2)) := List.drop_left' hb5
  rw [hdrop]
  have hns : ∀ s ∈ chunks.map (fun c => c.2), s ≠ [] ∧ s.length < 256 ^ 4 := by
    intro s hs
    obtain ⟨c, hc, rfl⟩ := List.mem_map.mp hs
    exact ⟨(hchunks c hc).1.1, (hchunks c hc).2⟩
  have hspec := (WriteAVCC.parse_spec 4 (by omega) (chunks.map (fun c => c.2)) []
    ((([cid ||| 0x20, 1] ++ putBE 3 ((pts + 2 ^ 32 - dts) % 2 ^ 32 / 90)) ++
      avccEncodeN 4 (chunks.map (fun c => c.2))).length + 1)
    hns (by simp only [List.length_append, List.append_nil]; omega)).1 (by simp)
  rw [List.append_nil] at hspec
  rw [hspec]
  simp [List.map_map, Function.comp_def]

theorem WriteAnnexB_AVCC_roundtrip_witness :
    ((⟨true, false⟩ : EngineConfig).EnableAVCC = true ∧
      (∀ c ∈ [(true, exSPS), (false, exIDR)], CleanSpan c.2 ∧ c.2.length < 256 ^ 4) ∧
      ([(true, exSPS), (false, exIDR)] : List (Bool × List Nat)) ≠ []) ∧
    (∃ bufs,
      (flushAVCC ⟨true, false⟩ 7
          (WriteAnnexB 90 0 AVFrame.reset
            (annexBChunks [(true, exSPS), (false, exIDR)]))).AVCC = some bufs ∧
      WriteAVCC 4 bufs.flatten =
        ((WriteAnnexB 90 0 AVFrame.reset
            (annexBChunks [(true, exSPS), (false, exIDR)])).Raw, false)) :=
  ⟨⟨rfl, by decide, by decide⟩,
    WriteAnnexB_AVCC_roundtrip [(true, exSPS), (false, exIDR)] 90 0 7 ⟨true, false⟩
      rfl (by decide) (by decide)⟩

/-- Modelled from the spec: one slot of the cyclic frame cache (§4.2) — a
stable slot identity plus the frame it currently holds (its
sequence-in-track number and keyframe flag; the payload fields play no
role in the cache bookkeeping). -/
structure RSlot where
  id : Nat
  SeqInTrack : Nat
  IFrame : Bool
deriving DecidableEq

/-- Modelled from the spec: recycling a slot's frame for reuse (object-pool
reset, §3 Frame lifecycle). -/
def RSlot.Reset (v : RSlot) : RSlot := { v with SeqInTrack := 0, IFrame := false }

/-- The video track's cache state: the ring as a list whose head is the
writer slot (`Ring`/`Value`), followed by the remaining slots in write
order — position 1 is the next slot the writer will advance onto (the
oldest resident frame), the last position the most recently finalized
frame.  `Size`, `GOP`, `idrCount` and `IDRing` (as the marked slot's
identity) are the track fields of `Video` (video.go lines 13-21);
`seqCounter` (the last assigned sequence-in-track number) and `nextId`
(a fresh-identity source for grown slots) are modelled from the spec. -/
structure VideoState where
  slots : List RSlot
  Size : Nat
  GOP : Int
  idrCount : Int
  IDRing : Option Nat
  seqCounter : Nat
  nextId : Nat
deriving DecidableEq

def headSlot (t : VideoState) : RSlot := t.slots.headD ⟨0, 0, false⟩

/-- `vt.Next()`: the slot after the writer (itself for a one-slot ring). -/
def nextSlot (t : VideoState) : RSlot := t.slots.tail.headD (headSlot t)

/-- Dereference the `IDRing` pointer: the sequence number currently held by
the identified slot (`t.IDRing.Value.SeqInTrack`). -/
def slotSeq (slots : List RSlot) (i : Nat) : Nat :=
  ((slots.find? (fun v => v.id = i)).map RSlot.SeqInTrack).getD 0

/-- The number of keyframe slots physically present. -/
def keyCount (slots : List RSlot) : Nat := (slots.filter (fun v => v.IFrame)).length

/-- The sequence-number gap `ComputeGOP` measures: the just-written frame's
number minus the marked keyframe slot's
(`t.Value.SeqInTrack - t.IDRing.Value.SeqInTrack`, video.go line 37). -/
def gopVal (t : VideoState) (i : Nat) : Int :=
  ((headSlot t).SeqInTrack : Int) - (slotSeq t.slots i : Int)

/-- The shrink excess `l := t.Size - t.GOP - 5` (video.go line 38), with
`t.GOP` the gap just assigned. -/
def shrinkL (t : VideoState) (i : Nat) : Int := (t.Size : Int) - gopVal t i - 5

/-- `Video.ComputeGOP` (video.go lines 34-51): count the arriving keyframe;
if a previous keyframe position is known, set `GOP` to the
sequence-number gap and, when the excess `l` exceeds the 5-frame margin,
shrink the cache by `l` — `Unlink(l)` removes the `l` slots after the
writer (the oldest frames), decrementing `idrCount` for each removed
keyframe and recycling the slots; finally mark the current slot (whose
position the shrink never moves) as the most recent keyframe. -/
def ComputeGOP (t : VideoState) : VideoState :=
  let t1 := { t with idrCount := t.idrCount + 1 }
  let t2 :=
    match t.IDRing with
    | none => t1
    | some idrId =>
      if shrinkL t idrId > 5 then
        { t1 with
          GOP := gopVal t idrId,
          Size := t.Size - (shrinkL t idrId).toNat,
          slots := headSlot t :: t.slots.tail.drop (shrinkL t idrId).toNat,
          idrCount := t1.idrCount -
            (keyCount (t.slots.tail.take (shrinkL t idrId).toNat) : Int) }
      else { t1 with GOP := gopVal t idrId }
  { t2 with IDRing := some (headSlot t).id }

/-- Modelled from the spec: `Media.Flush`'s ring advance (§4.2) — the
writer moves one slot forward (the old writer slot becomes the newest
finalized frame, at the end of the list) and the slot it lands on is
recycled for the next write. -/
def MediaFlush (t : VideoState) : VideoState :=
  match t.slots with
  | [] => t
  | h :: rest =>
    match rest with
    | [] => { t with slots := [h.Reset] }
    | n :: rest' => { t with slots := n.Reset :: (rest' ++ [h]) }

/-- `Video.Flush`, cache part (video.go lines 125-136): if the slot the
writer is about to advance onto holds a keyframe, then — when it is the
only resident keyframe — grow the ring by 5 fresh slots inserted after
the writer (only below the 256-slot ceiling; at or above it nothing
happens), otherwise decrement the resident-keyframe counter; then advance
(`Media.Flush`). -/
def Flush (t : VideoState) : VideoState :=
  let t :=
    if (nextSlot t).IFrame then
      if t.idrCount = 1 then
        if t.Size < 256 then
          { t with
            slots := headSlot t ::
              ((List.range 5).map (fun j => (⟨t.nextId + j, 0, false⟩ : RSlot)) ++
                t.slots.tail),
            Size := t.Size + 5,
            nextId := t.nextId + 5 }
        else t
      else { t with idrCount := t.idrCount - 1 }
    else t
  MediaFlush t

/-- Modelled from the spec: writing a nonempty access unit into the writer
slot (§4.1 ingest) — it receives the next sequence-in-track number and
the keyframe flag. -/
def writeFrame (k : Bool) (t : VideoState) : VideoState :=
  match t.slots with
  | [] => t
  | h :: rest =>
    { t with
      slots := { h with SeqInTrack := t.seqCounter + 1, IFrame := k } :: rest,
      seqCounter := t.seqCounter + 1 }

/-- The finalize pipeline up to (excluding) `Flush`: write the frame and,
for a keyframe, run the GOP bookkeeping (spec §4.1 steps 1-3). -/
def preFlush (k : Bool) (t : VideoState) : VideoState :=
  if k then ComputeGOP (writeFrame k t) else writeFrame k t

/-- One full ingest of a nonempty access unit (write, GOP bookkeeping,
flush with ring advance). -/
def ingest (k : Bool) (t : VideoState) : VideoState := Flush (preFlush k t)

def runIngest (keys : List Bool) (t : VideoState) : VideoState :=
  keys.foldl (fun s k => ingest k s) t

/-- A fresh track cache of `n` recycled slots, writer at slot 0. -/
def initState (n : Nat) : VideoState :=
  { slots := (List.range n).map (fun j => (⟨j, 0, false⟩ : RSlot)),
    Size := n, GOP := 0, idrCount := 0, IDRing := none,
    seqCounter := 0, nextId := n }

/-- The grow-ceiling hole of `Video.Flush` (video.go lines 128-131): the
writer is about to overwrite the only resident keyframe but the ring is
at (or beyond) the 256-slot ceiling, so neither the grow nor the
decrement branch runs. -/
def flushHole (u : VideoState) : Bool :=
  (nextSlot u).IFrame && decide (u.idrCount = 1) && decide (256 ≤ u.Size)

/-- No ingest of the run reaches its `Flush` in the grow-ceiling hole. -/
def safeRun : VideoState → List Bool → Bool
  | _, [] => true
  | t, k :: ks => !flushHole (preFlush k t) && safeRun (ingest k t) ks

/-- `Video.ReadRing` (video.go lines 138-142): a fresh subscriber cursor —
a clone of the track's ring handle repositioned at the most-recent-
keyframe marker. -/
def ReadRing (t : VideoState) : Option Nat := t.IDRing

/-- The first frame `Video.Play` (video.go lines 143-151) delivers: the
content of the slot its `ReadRing` cursor starts on. -/
def Play (t : VideoState) : Option RSlot :=
  (ReadRing t).bind (fun i => t.slots.find? (fun v => v.id = i))

/-- The ring state reached after ingesting one keyframe and 127 non-key
frames into a fresh 256-slot cache (a checkpoint for evaluating the full
256-frame run in two kernel-sized halves). -/
def midState : VideoState :=
  ⟨(List.range 128).map (fun i => (⟨128 + i, 0, false⟩ : RSlot)) ++
    [⟨0, 1, true⟩] ++ (List.range 127).map (fun i => (⟨1 + i, 2 + i, false⟩ : RSlot)),
   256, 0, 1, some 0, 128, 256⟩

theorem runIngest_append (a b : List Bool) (t : VideoState) :
    runIngest (a ++ b) t = runIngest b (runIngest a t) := by
  simp [runIngest, List.foldl_append]

/-- **C7 counterexample.**  On a fresh 256-slot cache (at the hard-coded
grow ceiling), ingest one keyframe followed by 255 non-key frames — a
sequence with a single keyframe, so the claim's ≥ 6 spacing condition on
consecutive keyframes holds vacuously.  The 256th flush finds the writer
about to overwrite the only resident keyframe with `Size = 256`: the grow
branch is skipped by the ceiling and the decrement branch by
`idrCount == 1`, so the keyframe is recycled while the counter still
records it — after that flush `idrCount = 1` but no keyframe slot is
physically present. -/
theorem idrCount_ceiling_desync :
    (runIngest (true :: List.replicate 255 false) (initState 256)).idrCount = 1 ∧
    keyCount (runIngest (true :: List.replicate 255 false) (initState 256)).slots = 0 ∧
    (true :: List.replicate 255 false).count true = 1 := by
  have hsplit : true :: List.replicate 255 false =
      (true :: List.replicate 127 false) ++ List.replicate 128 false := by
    rw [List.cons_append, ← List.replicate_add]
  have h1 : runIngest (true :: List.replicate 127 false) (initState 256) = midState := by
    decide
  have hrun : runIngest (true :: List.replicate 255 false) (initState 256) =
      runIngest (List.replicate 128 false) midState := by
    rw [hsplit, runIngest_append, h1]
  refine ⟨?_, ?_, ?_⟩
  · rw [hrun]; decide
  · rw [hrun]; decide
  · decide


theorem keyCount_append (a b : List RSlot) :
    keyCount (a ++ b) = keyCount a + keyCount b := by
  simp [keyCount, List.filter_append]

theorem keyCount_cons (v : RSlot) (l : List RSlot) :
    keyCount (v :: l) = (if v.IFrame then 1 else 0) + keyCount l := by
  by_cases h : v.IFrame
  · simp [keyCount, List.filter_cons, h]
    omega
  · simp [keyCount, List.filter_cons, h]

theorem keyCount_take_drop (l : List RSlot) (m : Nat) :
    keyCount l = keyCount (l.take m) + keyCount (l.drop m) := by
  conv_lhs => rw [← List.take_append_drop m l]
  exact keyCount_append ..

theorem slotSeq_le (slots : List RSlot) (i c : Nat)
    (h : ∀ v ∈ slots, v.SeqInTrack ≤ c) : slotSeq slots i ≤ c := by
  unfold slotSeq
  cases hf : slots.find? (fun v => v.id = i) with
  | none => simp
  | some v =>
    simp only [Option.map_some', Option.getD_some]
    exact h v (List.mem_of_find?_eq_some hf)

/-- Well-formedness of a track cache state at an ingest boundary: the size
field counts the slots, at least two slots exist, the writer slot is
recycled, and no resident frame's sequence number exceeds the counter. -/
def WF (t : VideoState) : Prop :=
  t.slots.length = t.Size ∧ 2 ≤ t.Size ∧ (headSlot t).IFrame = false ∧
  ∀ v ∈ t.slots, v.SeqInTrack ≤ t.seqCounter

instance (t : VideoState) : Decidable (WF t) := by
  unfold WF
  infer_instance

theorem writeFrame_eq (k : Bool) (t : VideoState) (h0 : RSlot) (rest : List RSlot)
    (hs : t.slots = h0 :: rest) :
    writeFrame k t =
      { t with
        slots := { h0 with SeqInTrack := t.seqCounter + 1, IFrame := k } :: rest,
        seqCounter := t.seqCounter + 1 } := by
  simp [writeFrame, hs]

theorem ComputeGOP_eq_none (t : VideoState) (h : t.IDRing = none) :
    ComputeGOP t =
      { t with idrCount := t.idrCount + 1, IDRing := some (headSlot t).id } := by
  simp [ComputeGOP, h]

theorem ComputeGOP_eq_keep (t : VideoState) (i : Nat) (h : t.IDRing = some i)
    (hns : ¬shrinkL t i > 5) :
    ComputeGOP t =
      { t with idrCount := t.idrCount + 1, GOP := gopVal t i,
               IDRing := some (headSlot t).id } := by
  simp [ComputeGOP, h, hns]

theorem ComputeGOP_eq_shrink (t : VideoState) (i : Nat) (h : t.IDRing = some i)
    (hsh : shrinkL t i > 5) :
    ComputeGOP t =
      { t with
        slots := headSlot t :: t.slots.tail.drop (shrinkL t i).toNat,
        Size := t.Size - (shrinkL t i).toNat,
        GOP := gopVal t i,
        idrCount := t.idrCount + 1 -
          (keyCount (t.slots.tail.take (shrinkL t i).toNat) : Int),
        IDRing := some (headSlot t).id } := by
  simp [ComputeGOP, h, hsh]

theorem MediaFlush_eq (t : VideoState) (h0 n0 : RSlot) (rest : List RSlot)
    (hs : t.slots = h0 :: n0 :: rest) :
    MediaFlush t = { t with slots := n0.Reset :: (rest ++ [h0]) } := by
  simp [MediaFlush, hs]

theorem Flush_eq_quiet (t : VideoState) (h : (nextSlot t).IFrame = false) :
    Flush t = MediaFlush t := by
  simp [Flush, h]

theorem Flush_eq_grow (t : VideoState) (h1 : (nextSlot t).IFrame = true)
    (h2 : t.idrCount = 1) (h3 : t.Size < 256) :
    Flush t = MediaFlush
      { t with
        slots := headSlot t ::
          ((List.range 5).map (fun j => (⟨t.nextId + j, 0, false⟩ : RSlot)) ++
            t.slots.tail),
        Size := t.Size + 5, nextId := t.nextId + 5 } := by
  simp [Flush, h1, h2, h3]

theorem Flush_eq_hole (t : VideoState) (h1 : (nextSlot t).IFrame = true)
    (h2 : t.idrCount = 1) (h3 : ¬t.Size < 256) :
    Flush t = MediaFlush t := by
  simp [Flush, h1, h2, h3]

theorem Flush_eq_dec (t : VideoState) (h1 : (nextSlot t).IFrame = true)
    (h2 : ¬t.idrCount = 1) :
    Flush t = MediaFlush { t with idrCount := t.idrCount - 1 } := by
  simp [Flush, h1, h2]

theorem preFlush_spec (k : Bool) (t : VideoState)
    (hlen : t.slots.length = t.Size) (hsize : 2 ≤ t.Size)
    (hhead : (headSlot t).IFrame = false)
    (hseq : ∀ v ∈ t.slots, v.SeqInTrack ≤ t.seqCounter) :
    (preFlush k t).slots.length = (preFlush k t).Size ∧
    2 ≤ (preFlush k t).Size ∧
    (∀ v ∈ (preFlush k t).slots, v.SeqInTrack ≤ (preFlush k t).seqCounter) ∧
    (t.idrCount = (keyCount t.slots : Int) →
      (preFlush k t).idrCount = (keyCount (preFlush k t).slots : Int)) := by
  obtain ⟨h0, rest0, hs⟩ : ∃ h0 rest0, t.slots = h0 :: rest0 := by
    cases hsl : t.slots with
    | nil => rw [hsl] at hlen; simp at hlen; omega
    | cons a l => exact ⟨a, l, rfl⟩
  have hh0 : h0.IFrame = false := by
    simpa [headSlot, hs] using hhead
  have hw := writeFrame_eq k t h0 rest0 hs
  have hrlen : rest0.length + 1 = t.Size := by
    rw [hs] at hlen
    simpa using hlen
  have hrseq : ∀ v ∈ rest0, v.SeqInTrack ≤ t.seqCounter := by
    intro v hv
    exact hseq v (by rw [hs]; simp [hv])
  cases k with
  | false =>
    have hp : preFlush false t =
        { t with
          slots := { h0 with SeqInTrack := t.seqCounter + 1, IFrame := false } :: rest0,
          seqCounter := t.seqCounter + 1 } := by
      rw [preFlush, if_neg (by simp)]
      exact hw
    rw [hp]
    refine ⟨by simpa using hrlen, hsize, ?_, ?_⟩
    · intro v hv
      simp only [List.mem_cons] at hv
      rcases hv with hv | hv
      · subst hv; simp
      · exact Nat.le_succ_of_le (hrseq v hv)
    · intro hc
      rw [hs] at hc
      rw [keyCount_cons] at hc ⊢
      simpa [hh0] using hc
  | true =>
    have hp : preFlush true t = ComputeGOP (writeFrame true t) := by
      rw [preFlush, if_pos rfl]
    set w := writeFrame true t with hwdef
    have hws : w.slots = { h0 with SeqInTrack := t.seqCounter + 1, IFrame := true } :: rest0 := by
      rw [hw]
    have hwhead : headSlot w = { h0 with SeqInTrack := t.seqCounter + 1, IFrame := true } := by
      simp [headSlot, hws]
    have hwsize : w.Size = t.Size := by rw [hw]
    have hwseqc : w.seqCounter = t.seqCounter + 1 := by rw [hw]
    have hwidr : w.IDRing = t.IDRing := by rw [hw]
    have hwidrc : w.idrCount = t.idrCount := by rw [hw]
    have hwtail : w.slots.tail = rest0 := by rw [hws]; rfl
    have hwseq : ∀ v ∈ w.slots, v.SeqInTrack ≤ w.seqCounter := by
      intro v hv
      rw [hws] at hv
      simp only [List.mem_cons] at hv
      rcases hv with hv | hv
      · subst hv; simp [hwseqc]
      · rw [hwseqc]; exact Nat.le_succ_of_le (hrseq v hv)
    have hwkc : (keyCount w.slots : Int) = (keyCount t.slots : Int) + 1 := by
      rw [hws, hs, keyCount_cons, keyCount_cons]
      simp [hh0]
      omega
    rw [hp]
    cases hidr : w.IDRing with
    | none =>
      rw [ComputeGOP_eq_none w hidr]
      refine ⟨by simpa using (hws ▸ (by simpa using hrlen) : w.slots.length = t.Size) ▸ hwsize.symm ▸ rfl, ?_, ?_, ?_⟩
      · simpa [hwsize] using hsize
      · intro v hv
        exact hwseq v (by simpa using hv)
      · intro hc
        have : w.idrCount = t.idrCount := hwidrc
        simp only []
        rw [hwidrc, hc, hwkc]
    | some i =>
      have hgop : 0 ≤ gopVal w i := by
        have hle := slotSeq_le w.slots i w.seqCounter hwseq
        have hhs : (headSlot w).SeqInTrack = w.seqCounter := by
          rw [hwhead, hwseqc]
        unfold gopVal
        rw [hhs]
        omega
      by_cases hsh : shrinkL w i > 5
      · have hln : ((shrinkL w i).toNat : Int) = shrinkL w i :=
          Int.toNat_of_nonneg (by omega)
        have hnsize : (shrinkL w i).toNat + 5 ≤ t.Size := by
          have hdef : shrinkL w i = (w.Size : Int) - gopVal w i - 5 := rfl
          rw [← hwsize]
          omega
        have hnrest : (shrinkL w i).toNat ≤ rest0.length := by omega
        rw [ComputeGOP_eq_shrink w i hidr hsh]
        refine ⟨?_, ?_, ?_, ?_⟩
        · simp only [List.length_cons, hwtail, hwsize, List.length_drop]
          omega
        · simp only [hwsize]
          omega
        · intro v hv
          simp only [List.mem_cons, hwtail] at hv
          rcases hv with hv | hv
          · subst hv
            rw [hwhead]
            simp [hwseqc]
          · exact hwseq v (by rw [hws]; simp [List.mem_of_mem_drop hv])
        · intro hc
          simp only [hwtail]
          have hsplit := keyCount_take_drop rest0 (shrinkL w i).toNat
          have hkct : (keyCount t.slots : Int) = (keyCount rest0 : Int) := by
            rw [hs, keyCount_cons]
            simp [hh0]
          have hkchead : keyCount (headSlot w :: rest0.drop (shrinkL w i).toNat) =
              1 + keyCount (rest0.drop (shrinkL w i).toNat) := by
            rw [keyCount_cons, hwhead]
            simp
          rw [hwidrc, hkchead, hc, hkct]
          push_cast
          omega
      · rw [ComputeGOP_eq_keep w i hidr hsh]
        refine ⟨?_, ?_, ?_, ?_⟩
        · simp only [hws, List.length_cons, hwsize]
          simpa using hrlen
        · simpa [hwsize] using hsize
        · intro v hv
          exact hwseq v (by simpa using hv)
        · intro hc
          simp only []
          rw [hwidrc, hc, hwkc]

theorem keyCount_nil : keyCount [] = 0 := rfl

theorem Flush_spec (u : VideoState)
    (hlen : u.slots.length = u.Size) (hsize : 2 ≤ u.Size)
    (hseq : ∀ v ∈ u.slots, v.SeqInTrack ≤ u.seqCounter)
    (hcount : u.idrCount = (keyCount u.slots : Int))
    (hhole : flushHole u = false) :
    WF (Flush u) ∧ (Flush u).idrCount = (keyCount (Flush u).slots : Int) := by
  obtain ⟨h0, n0, rest, hs⟩ : ∃ h0 n0 rest, u.slots = h0 :: n0 :: rest := by
    rcases hsl : u.slots with _ | ⟨a, _ | ⟨b, l2⟩⟩
    · rw [hsl] at hlen; simp at hlen; omega
    · rw [hsl] at hlen; simp at hlen; omega
    · exact ⟨a, b, l2, rfl⟩

  have hnext : nextSlot u = n0 := by simp [nextSlot, hs]
  have hhd : headSlot u = h0 := by simp [headSlot, hs]
  have hlen2 : rest.length + 2 = u.Size := by
    rw [hs] at hlen
    simpa using hlen
  have hmemh : h0 ∈ u.slots := by rw [hs]; simp
  have hmemn : n0 ∈ u.slots := by rw [hs]; simp
  have hmemrest : ∀ v ∈ rest, v ∈ u.slots := by
    intro v hv
    rw [hs]
    simp [hv]
  rw [hs] at hcount
  simp only [keyCount_cons] at hcount
  cases hn : n0.IFrame with
  | false =>
    rw [Flush_eq_quiet u (by rw [hnext, hn]), MediaFlush_eq u h0 n0 rest hs]
    refine ⟨⟨?_, hsize, ?_, ?_⟩, ?_⟩
    · simp only [List.length_cons, List.length_append, List.length_singleton,
        List.length_nil]
      omega
    · simp [headSlot, RSlot.Reset]
    · intro v hv
      simp only [List.mem_cons, List.mem_append, List.mem_singleton,
        List.not_mem_nil, or_false, false_or] at hv
      rcases hv with hv | hv | hv
      · rw [hv]; simp [RSlot.Reset]
      · exact hseq v (hmemrest v hv)
      · rw [hv]; exact hseq h0 hmemh
    · simp only [keyCount_cons, keyCount_append, keyCount_nil, RSlot.Reset, hn] at hcount ⊢
      simp only [Bool.false_eq_true, if_false] at hcount ⊢
      push_cast at hcount ⊢
      omega
  | true =>
    by_cases h1 : u.idrCount = 1
    · by_cases hsz : u.Size < 256
      · have hgs : ({ u with
            slots := headSlot u ::
              ((List.range 5).map (fun j => (⟨u.nextId + j, 0, false⟩ : RSlot)) ++
                u.slots.tail),
            Size := u.Size + 5, nextId := u.nextId + 5 } : VideoState).slots =
            h0 :: (⟨u.nextId + 0, 0, false⟩ : RSlot) ::
              ([⟨u.nextId + 1, 0, false⟩, ⟨u.nextId + 2, 0, false⟩,
                ⟨u.nextId + 3, 0, false⟩, ⟨u.nextId + 4, 0, false⟩] ++ (n0 :: rest)) := by
          simp only [hhd, hs]
          rfl
        rw [Flush_eq_grow u (by rw [hnext, hn]) h1 hsz]
        rw [MediaFlush_eq _ h0 (⟨u.nextId + 0, 0, false⟩ : RSlot)
          ([⟨u.nextId + 1, 0, false⟩, ⟨u.nextId + 2, 0, false⟩, ⟨u.nextId + 3, 0, false⟩,
            ⟨u.nextId + 4, 0, false⟩] ++ (n0 :: rest)) hgs]
        refine ⟨⟨?_, ?_, ?_, ?_⟩, ?_⟩
        · simp only [List.length_cons, List.length_append, List.length_singleton,
            List.length_nil]
          omega
        · simp only []
          omega
        · simp [headSlot, RSlot.Reset]
        · intro v hv
          simp only [List.mem_cons, List.mem_append, List.mem_singleton,
            List.not_mem_nil, or_false, false_or, or_assoc] at hv
          rcases hv with hv | hv | hv | hv | hv | hv | hv | hv
          · rw [hv]; simp [RSlot.Reset]
          · rw [hv]; simp
          · rw [hv]; simp
          · rw [hv]; simp
          · rw [hv]; simp
          · rw [hv]; exact hseq n0 hmemn
          · exact hseq v (hmemrest v hv)
          · rw [hv]; exact hseq h0 hmemh
        · simp only [keyCount_cons, keyCount_append, keyCount_nil, RSlot.Reset, hn] at hcount ⊢
          simp only [Bool.false_eq_true, if_false, if_true] at hcount ⊢
          push_cast at hcount ⊢
          omega
      · exfalso
        have htrue : flushHole u = true := by
          simp [flushHole, hnext, hn, h1, Nat.not_lt.mp hsz]
        rw [htrue] at hhole
        cases hhole
    · rw [Flush_eq_dec u (by rw [hnext, hn]) h1]
      rw [MediaFlush_eq _ h0 n0 rest (by simpa using hs)]
      refine ⟨⟨?_, hsize, ?_, ?_⟩, ?_⟩
      · simp only [List.length_cons, List.length_append, List.length_singleton,
        List.length_nil]
        omega
      · simp [headSlot, RSlot.Reset]
      · intro v hv
        simp only [List.mem_cons, List.mem_append, List.mem_singleton,
          List.not_mem_nil, or_false, false_or] at hv
        rcases hv with hv | hv | hv
        · rw [hv]; simp [RSlot.Reset]
        · exact hseq v (hmemrest v hv)
        · rw [hv]; exact hseq h0 hmemh
      · simp only [keyCount_cons, keyCount_append, keyCount_nil, RSlot.Reset, hn] at hcount ⊢
        simp only [Bool.false_eq_true, if_false, if_true] at hcount ⊢
        push_cast at hcount ⊢
        omega

theorem ingest_preserves (k : Bool) (t : VideoState) (hwf : WF t)
    (hcount : t.idrCount = (keyCount t.slots : Int))
    (hsafe : flushHole (preFlush k t) = false) :
    WF (ingest k t) ∧ (ingest k t).idrCount = (keyCount (ingest k t).slots : Int) := by
  obtain ⟨hlen, hsize, hhead, hseq⟩ := hwf
  obtain ⟨hl, hsz, hsq, hcnt⟩ := preFlush_spec k t hlen hsize hhead hseq
  exact Flush_spec (preFlush k t) hl hsz hsq (hcnt hcount) hsafe

/-- **C7 (amended).**  The resident-keyframe counter matches the number of
keyframe slots physically present after every flush, for every ingest
sequence — keyframe arrival increments it, cache-shrinking decrements it
once per removed keyframe slot, and overwriting a keyframe slot when more
than one keyframe is resident decrements it — **provided** no flush runs
in the grow-ceiling hole (`flushHole`): about to overwrite the only
resident keyframe with the ring already at 256 slots or more.  (The
original claim's keyframe-spacing proviso does not rule that hole out —
see the counterexample — so the hole-freedom proviso replaces it.)
Starting from any well-formed state whose counter matches, every
intermediate state of the run again satisfies both, hence the equality
holds after every flush of the run. -/
theorem idrCount_matches_keyCount (keys : List Bool) (t : VideoState)
    (hwf : WF t) (h0 : t.idrCount = (keyCount t.slots : Int))
    (hsafe : safeRun t keys = true) :
    WF (runIngest keys t) ∧
    (runIngest keys t).idrCount = (keyCount (runIngest keys t).slots : Int) := by
  induction keys generalizing t with
  | nil => exact ⟨hwf, h0⟩
  | cons k ks ih =>
    rw [safeRun, Bool.and_eq_true] at hsafe
    obtain ⟨hh, hrest⟩ := hsafe
    have hh' : flushHole (preFlush k t) = false := by simpa using hh
    obtain ⟨hwf', hc'⟩ := ingest_preserves k t hwf h0 hh'
    have hstep : runIngest (k :: ks) t = runIngest ks (ingest k t) := rfl
    rw [hstep]
    exact ih (ingest k t) hwf' hc' hrest

theorem idrCount_matches_keyCount_witness :
    (WF (initState 2) ∧ (initState 2).idrCount = (keyCount (initState 2).slots : Int) ∧
      safeRun (initState 2) [true, false, false] = true) ∧
    (WF (runIngest [true, false, false] (initState 2)) ∧
      (runIngest [true, false, false] (initState 2)).idrCount =
        (keyCount (runIngest [true, false, false] (initState 2)).slots : Int)) :=
  ⟨⟨by decide, by decide, by decide⟩,
   idrCount_matches_keyCount [true, false, false] (initState 2)
     (by decide) (by decide) (by decide)⟩

/-- The structural invariant behind the attach guarantee: slot identities
are distinct and below the fresh-id source, and whenever a keyframe is
physically resident, the `IDRing` marker identifies a keyframe slot that
no later (newer) slot position follows with another keyframe — i.e. the
marked slot holds the newest resident keyframe. -/
def RingInv (t : VideoState) : Prop :=
  (t.slots.map RSlot.id).Nodup ∧
  (∀ v ∈ t.slots, v.id < t.nextId) ∧
  (1 ≤ keyCount t.slots →
    ∃ idr pre post, t.IDRing = some idr.id ∧ idr.IFrame = true ∧
      t.slots = pre ++ idr :: post ∧ keyCount post = 0)

theorem headSlot_mem (t : VideoState) (h : t.slots ≠ []) : headSlot t ∈ t.slots := by
  cases hs : t.slots with
  | nil => exact absurd hs h
  | cons a l => simp [headSlot, hs]

theorem MediaFlush_WF (u : VideoState)
    (hlen : u.slots.length = u.Size) (hsize : 2 ≤ u.Size)
    (hseq : ∀ v ∈ u.slots, v.SeqInTrack ≤ u.seqCounter) :
    WF (MediaFlush u) := by
  obtain ⟨h0, n0, rest, hs⟩ : ∃ h0 n0 rest, u.slots = h0 :: n0 :: rest := by
    rcases hsl : u.slots with _ | ⟨a, _ | ⟨b, l2⟩⟩
    · rw [hsl] at hlen; simp at hlen; omega
    · rw [hsl] at hlen; simp at hlen; omega
    · exact ⟨a, b, l2, rfl⟩
  rw [MediaFlush_eq u h0 n0 rest hs]
  have hlen2 : rest.length + 2 = u.Size := by
    rw [hs] at hlen
    simpa using hlen
  refine ⟨?_, hsize, ?_, ?_⟩
  · simp only [List.length_cons, List.length_append, List.length_singleton, List.length_nil]
    omega
  · simp [headSlot, RSlot.Reset]
  · intro v hv
    simp only [List.mem_cons, List.mem_append, List.mem_singleton,
      List.not_mem_nil, or_false, false_or] at hv
    rcases hv with hv | hv | hv
    · rw [hv]; simp [RSlot.Reset]
    · exact hseq v (by rw [hs]; simp [hv])
    · rw [hv]; exact hseq h0 (by rw [hs]; simp)

theorem Flush_WF (u : VideoState)
    (hlen : u.slots.length = u.Size) (hsize : 2 ≤ u.Size)
    (hseq : ∀ v ∈ u.slots, v.SeqInTrack ≤ u.seqCounter) :
    WF (Flush u) := by
  cases hn : (nextSlot u).IFrame with
  | false =>
    rw [Flush_eq_quiet u hn]
    exact MediaFlush_WF u hlen hsize hseq
  | true =>
    by_cases h1 : u.idrCount = 1
    · by_cases hsz2 : u.Size < 256
      · rw [Flush_eq_grow u hn h1 hsz2]
        apply MediaFlush_WF
        · simp only [List.length_cons, List.length_append, List.length_map,
            List.length_range, List.length_tail]
          omega
        · simp only []
          omega
        · intro v hv
          simp only [List.mem_cons, List.mem_append] at hv
          rcases hv with hv | hv | hv
          · rw [hv]
            exact hseq (headSlot u) (headSlot_mem u (by
              intro hnil
              rw [hnil] at hlen
              simp at hlen
              omega))
          · obtain ⟨j, hj, hvj⟩ := List.mem_map.mp hv
            rw [← hvj]
            simp
          · exact hseq v (List.mem_of_mem_tail hv)
      · rw [Flush_eq_hole u hn h1 hsz2]
        exact MediaFlush_WF u hlen hsize hseq
    · rw [Flush_eq_dec u hn h1]
      apply MediaFlush_WF
      · simpa using hlen
      · simpa using hsize
      · intro v hv
        exact hseq v (by simpa using hv)

theorem nodup_ids_rotate (x h0 n0 : RSlot) (rest : List RSlot)
    (hx : x.id = n0.id)
    (h : ((h0 :: n0 :: rest).map RSlot.id).Nodup) :
    ((x :: (rest ++ [h0])).map RSlot.id).Nodup := by
  have hperm : ((x :: (rest ++ [h0])).map RSlot.id).Perm
      ((h0 :: n0 :: rest).map RSlot.id) := by
    simp only [List.map_cons, List.map_append, List.map_nil, hx]
    have p1 : (rest.map RSlot.id ++ [h0.id]).Perm (h0.id :: rest.map RSlot.id) :=
      List.perm_append_singleton _ _
    have p2 := p1.cons n0.id
    exact p2.trans (List.Perm.swap _ _ _)
  exact hperm.symm.nodup h

theorem nodup_ids_grow (x f1 f2 f3 f4 h0 n0 : RSlot) (rest : List RSlot)
    (hfid : [x.id, f1.id, f2.id, f3.id, f4.id].Nodup)
    (hdisj : ∀ v ∈ h0 :: n0 :: rest, v.id ∉ [x.id, f1.id, f2.id, f3.id, f4.id])
    (h : ((h0 :: n0 :: rest).map RSlot.id).Nodup) :
    ((x :: (([f1, f2, f3, f4] ++ (n0 :: rest)) ++ [h0])).map RSlot.id).Nodup := by
  have htarget : ((x :: (([f1, f2, f3, f4] ++ (n0 :: rest)) ++ [h0])).map RSlot.id).Perm
      ([x.id, f1.id, f2.id, f3.id, f4.id] ++ (h0 :: n0 :: rest).map RSlot.id) := by
    simp only [List.map_cons, List.map_append, List.map_nil, List.append_assoc,
      List.cons_append, List.nil_append]
    have p1 : (rest.map RSlot.id ++ [h0.id]).Perm (h0.id :: rest.map RSlot.id) :=
      List.perm_append_singleton _ _
    have p3 : (n0.id :: (rest.map RSlot.id ++ [h0.id])).Perm
        (h0.id :: n0.id :: rest.map RSlot.id) :=
      (p1.cons n0.id).trans (List.Perm.swap _ _ _)
    have p4 : ([f1.id, f2.id, f3.id, f4.id] ++
        (n0.id :: (rest.map RSlot.id ++ [h0.id]))).Perm
        ([f1.id, f2.id, f3.id, f4.id] ++ (h0.id :: n0.id :: rest.map RSlot.id)) :=
      List.Perm.append_left _ p3
    exact p4.cons x.id
  apply htarget.symm.nodup
  apply List.Nodup.append hfid h
  intro a ha hb
  obtain ⟨v, hv, hvid⟩ := List.mem_map.mp hb
  exact hdisj v hv (hvid ▸ ha)

theorem find?_decomp (pre post : List RSlot) (idr : RSlot)
    (hnd : ((pre ++ idr :: post).map RSlot.id).Nodup) :
    (pre ++ idr :: post).find? (fun v => v.id = idr.id) = some idr := by
  induction pre with
  | nil =>
    have hp : (idr :: post).find? (fun v => v.id = idr.id) = some idr := by
      rw [List.find?_cons_of_pos]
      simp
    simpa using hp
  | cons p ps ih =>
    simp only [List.cons_append, List.map_cons, List.nodup_cons] at hnd
    have hne : p.id ≠ idr.id := by
      intro he
      exact hnd.1 (by
        rw [he]
        simp only [List.map_append, List.map_cons]
        exact List.mem_append_right _ (by simp))
    simp only [List.cons_append]
    rw [List.find?_cons_of_neg _ (by simp [hne])]
    exact ih hnd.2

theorem preFlush_shape (k : Bool) (t : VideoState)
    (hlen : t.slots.length = t.Size) (hsize : 2 ≤ t.Size) :
    ∃ wh m,
      (preFlush k t).slots = wh :: t.slots.tail.drop m ∧
      wh.IFrame = k ∧ wh.id = (headSlot t).id ∧
      (preFlush k t).seqCounter = t.seqCounter + 1 ∧
      (preFlush k t).nextId = t.nextId ∧
      (k = true → (preFlush k t).IDRing = some wh.id) ∧
      (k = false → (preFlush k t).IDRing = t.IDRing ∧ m = 0) := by
  obtain ⟨h0, rest0, hs⟩ : ∃ h0 rest0, t.slots = h0 :: rest0 := by
    cases hsl : t.slots with
    | nil => rw [hsl] at hlen; simp at hlen; omega
    | cons a l => exact ⟨a, l, rfl⟩
  have htail : t.slots.tail = rest0 := by rw [hs]; rfl
  have hw := writeFrame_eq k t h0 rest0 hs
  have hhd : headSlot t = h0 := by simp [headSlot, hs]
  cases k with
  | false =>
    have hp : preFlush false t =
        { t with
          slots := { h0 with SeqInTrack := t.seqCounter + 1, IFrame := false } :: rest0,
          seqCounter := t.seqCounter + 1 } := by
      rw [preFlush, if_neg (by simp)]
      exact hw
    refine ⟨{ h0 with SeqInTrack := t.seqCounter + 1, IFrame := false }, 0,
      ?_, rfl, ?_, ?_, ?_, ?_, ?_⟩
    · rw [hp, htail]
      simp
    · rw [hhd]
    · rw [hp]
    · rw [hp]
    · intro hk
      exact absurd hk (by decide)
    · intro _
      exact ⟨by rw [hp], rfl⟩
  | true =>
    have hp : preFlush true t = ComputeGOP (writeFrame true t) := by
      rw [preFlush, if_pos rfl]
    set w := writeFrame true t with hwdef
    have hws : w.slots =
        { h0 with SeqInTrack := t.seqCounter + 1, IFrame := true } :: rest0 := by
      rw [hw]
    have hwhd : headSlot w =
        { h0 with SeqInTrack := t.seqCounter + 1, IFrame := true } := by
      simp [headSlot, hws]
    have hwtail : w.slots.tail = rest0 := by rw [hws]; rfl
    have hwsc : w.seqCounter = t.seqCounter + 1 := by rw [hw]
    have hwnid : w.nextId = t.nextId := by rw [hw]
    cases hidr : w.IDRing with
    | none =>
      rw [hp, ComputeGOP_eq_none w hidr]
      refine ⟨{ h0 with SeqInTrack := t.seqCounter + 1, IFrame := true }, 0,
        ?_, rfl, ?_, ?_, ?_, ?_, ?_⟩
      · rw [htail]
        simpa using hws
      · rw [hhd]
      · simpa using hwsc
      · simpa using hwnid
      · intro _
        simp [hwhd]
      · intro hk
        exact absurd hk (by decide)
    | some i =>
      by_cases hsh : shrinkL w i > 5
      · rw [hp, ComputeGOP_eq_shrink w i hidr hsh]
        refine ⟨{ h0 with SeqInTrack := t.seqCounter + 1, IFrame := true },
          (shrinkL w i).toNat, ?_, rfl, ?_, ?_, ?_, ?_, ?_⟩
        · rw [htail]
          simp [hwhd, hwtail]
        · rw [hhd]
        · simpa using hwsc
        · simpa using hwnid
        · intro _
          simp [hwhd]
        · intro hk
          exact absurd hk (by decide)
      · rw [hp, ComputeGOP_eq_keep w i hidr hsh]
        refine ⟨{ h0 with SeqInTrack := t.seqCounter + 1, IFrame := true }, 0,
          ?_, rfl, ?_, ?_, ?_, ?_, ?_⟩
        · rw [htail]
          simpa using hws
        · rw [hhd]
        · simpa using hwsc
        · simpa using hwnid
        · intro _
          simp [hwhd]
        · intro hk
          exact absurd hk (by decide)

theorem ingest_inv (k : Bool) (t : VideoState) (hwf : WF t) (hinv : RingInv t) :
    WF (ingest k t) ∧ RingInv (ingest k t) := by
  obtain ⟨hlen, hsize, hhead, hseq⟩ := hwf
  obtain ⟨hnd, hlt, hpsi⟩ := hinv
  obtain ⟨h0, rest0, hs⟩ : ∃ h0 rest0, t.slots = h0 :: rest0 := by
    cases hsl : t.slots with
    | nil => rw [hsl] at hlen; simp at hlen; omega
    | cons a l => exact ⟨a, l, rfl⟩
  have htail : t.slots.tail = rest0 := by rw [hs]; rfl
  have hhd : headSlot t = h0 := by simp [headSlot, hs]
  have hh0f : h0.IFrame = false := by rw [hhd] at hhead; exact hhead
  obtain ⟨hul, husz, husq, _⟩ := preFlush_spec k t hlen hsize hhead hseq
  obtain ⟨wh, m, hus0, hwk, hwid, husc, hund, hidrT, hidrF⟩ := preFlush_shape k t hlen hsize
  set u := preFlush k t with hudef
  rw [htail] at hus0
  have hWFfin : WF (ingest k t) := Flush_WF u hul husz husq
  refine ⟨hWFfin, ?_⟩
  obtain ⟨n1, rest1, hd1⟩ : ∃ n1 rest1, rest0.drop m = n1 :: rest1 := by
    have h2 : 2 ≤ u.slots.length := by rw [hul]; exact husz
    rw [hus0] at h2
    cases hdd : rest0.drop m with
    | nil => rw [hdd] at h2; simp at h2
    | cons a l => exact ⟨a, l, rfl⟩
  have hus : u.slots = wh :: n1 :: rest1 := by rw [hus0, hd1]
  have hwid0 : wh.id = h0.id := by rw [hwid, hhd]
  have hndu : ((wh :: n1 :: rest1).map RSlot.id).Nodup := by
    have hids : u.slots.map RSlot.id = h0.id :: (rest0.map RSlot.id).drop m := by
      rw [hus0, List.map_cons, hwid0, List.map_drop]
    have hnd0 : ((h0 :: rest0).map RSlot.id).Nodup := by rw [← hs]; exact hnd
    have hsub : (h0.id :: (rest0.map RSlot.id).drop m).Sublist
        ((h0 :: rest0).map RSlot.id) := by
      simp only [List.map_cons]
      exact List.Sublist.cons₂ _ (List.drop_sublist _ _)
    have := hnd0.sublist hsub
    rw [← hids] at this
    rw [← hus]
    exact this
  have hmemu : ∀ v ∈ wh :: n1 :: rest1, v = wh ∨ v ∈ rest0 := by
    intro v hv
    rcases List.mem_cons.mp hv with hv | hv
    · exact Or.inl hv
    · right
      have : v ∈ rest0.drop m := by rw [hd1]; exact hv
      exact List.mem_of_mem_drop this
  have hltu : ∀ v ∈ wh :: n1 :: rest1, v.id < t.nextId := by
    intro v hv
    rcases hmemu v hv with hv | hv
    · rw [hv, hwid0]
      exact hlt h0 (by rw [hs]; simp)
    · exact hlt v (by rw [hs]; exact List.mem_cons_of_mem _ hv)
  have hnext : nextSlot u = n1 := by simp [nextSlot, hus]
  have hfin : ((∃ u', ingest k t = MediaFlush u' ∧ u'.slots = u.slots ∧
        u'.IDRing = u.IDRing ∧ u'.nextId = u.nextId) ∨
      (ingest k t = MediaFlush
        { u with
          slots := headSlot u ::
            ((List.range 5).map (fun j => (⟨u.nextId + j, 0, false⟩ : RSlot)) ++
              u.slots.tail),
          Size := u.Size + 5, nextId := u.nextId + 5 } ∧ n1.IFrame = true)) := by
    cases hn1 : (nextSlot u).IFrame with
    | false => exact Or.inl ⟨u, Flush_eq_quiet u hn1, rfl, rfl, rfl⟩
    | true =>
      by_cases h1 : u.idrCount = 1
      · by_cases hsz2 : u.Size < 256
        · exact Or.inr ⟨Flush_eq_grow u hn1 h1 hsz2, by rw [← hnext]; exact hn1⟩
        · exact Or.inl ⟨u, Flush_eq_hole u hn1 h1 hsz2, rfl, rfl, rfl⟩
      · exact Or.inl ⟨_, Flush_eq_dec u hn1 h1, rfl, rfl, rfl⟩
  rcases hfin with ⟨u', hfeq, hsl', hidr', hnid'⟩ | ⟨hfeq, hn1t⟩
  · -- rotate-only shapes: quiet / hole / decrement
    rw [hfeq, MediaFlush_eq u' wh n1 rest1 (by rw [hsl', hus])]
    refine ⟨?_, ?_, ?_⟩
    · simp only []
      exact nodup_ids_rotate n1.Reset wh n1 rest1 rfl hndu
    · intro v hv
      simp only [List.mem_cons, List.mem_append, List.mem_singleton,
        List.not_mem_nil, or_false, false_or] at hv
      have hnn : u'.nextId = t.nextId := by rw [hnid', hund]
      rw [hnn]
      rcases hv with hv | hv | hv
      · rw [hv]
        exact hltu n1 (by simp)
      · exact hltu v (by simp [hv])
      · rw [hv]
        exact hltu wh (by simp)
    · intro hkc
      cases k with
      | true =>
        refine ⟨wh, n1.Reset :: rest1, [], ?_, hwk, ?_, rfl⟩
        · show u'.IDRing = some wh.id
          rw [hidr']
          exact hidrT rfl
        · simp
      | false =>
        obtain ⟨hidru, hm0⟩ := hidrF rfl
        rw [hm0, List.drop_zero] at hd1
        have hkc1 : 1 ≤ keyCount rest1 := by
          have hR : n1.Reset.IFrame = false := rfl
          simp only [keyCount_cons, keyCount_append, keyCount_nil, hR, hwk] at hkc
          simpa using hkc
        have hkcold : 1 ≤ keyCount t.slots := by
          rw [hs, hd1]
          simp only [keyCount_cons]
          omega
        obtain ⟨idr, pre, post, hpidr, hpif, hpslots, hpkc⟩ := hpsi hkcold
        rw [hs, hd1] at hpslots
        cases pre with
        | nil =>
          exfalso
          simp only [List.nil_append] at hpslots
          have : h0 = idr := by
            injection hpslots with h _
          rw [← this] at hpif
          rw [hh0f] at hpif
          cases hpif
        | cons p0 pre1 =>
          simp only [List.cons_append] at hpslots
          injection hpslots with hp0 hrest
          cases pre1 with
          | nil =>
            exfalso
            simp only [List.nil_append] at hrest
            injection hrest with hn1i hres
            rw [← hres] at hpkc
            omega
          | cons p1 pre2 =>
            simp only [List.cons_append] at hrest
            injection hrest with hp1 hrest2
            refine ⟨idr, n1.Reset :: pre2, post ++ [wh], ?_, hpif, ?_, ?_⟩
            · show u'.IDRing = some idr.id
              rw [hidr', hidru, hpidr]
            · rw [hrest2]
              simp
            · simp only [keyCount_append, keyCount_cons, keyCount_nil, hwk]
              simp [hpkc]
  · -- grow shape
    have hghd : headSlot u = wh := by simp [headSlot, hus]
    have hgtl : u.slots.tail = n1 :: rest1 := by rw [hus]; rfl
    rw [hfeq, MediaFlush_eq _ wh (⟨u.nextId + 0, 0, false⟩ : RSlot)
      ([⟨u.nextId + 1, 0, false⟩, ⟨u.nextId + 2, 0, false⟩, ⟨u.nextId + 3, 0, false⟩,
        ⟨u.nextId + 4, 0, false⟩] ++ (n1 :: rest1))
      (by simp only [hghd, hgtl]; rfl)]
    have hfr : (⟨u.nextId + 0, 0, false⟩ : RSlot).Reset = ⟨u.nextId + 0, 0, false⟩ := rfl
    have hund' : u.nextId = t.nextId := hund
    refine ⟨?_, ?_, ?_⟩
    · simp only []
      apply nodup_ids_grow
      · simp only [hfr]
        simp [hund']
      · intro v hv
        have hvlt : v.id < t.nextId := hltu v hv
        simp only [hfr]
        simp [hund']
        omega
      · exact hndu
    · intro v hv
      simp only [List.mem_cons, List.mem_append, List.mem_singleton,
        List.not_mem_nil, or_false, false_or, or_assoc] at hv
      have hnn : ({ u with
          slots := headSlot u ::
            ((List.range 5).map (fun j => (⟨u.nextId + j, 0, false⟩ : RSlot)) ++
              u.slots.tail),
          Size := u.Size + 5, nextId := u.nextId + 5 } : VideoState).nextId =
          t.nextId + 5 := by
        simp only []
        rw [hund']
      rw [hnn]
      rcases hv with hv | hv | hv | hv | hv | hv | hv | hv
      · rw [hv, hfr]
        simp only []
        omega
      · rw [hv]; simp only []; omega
      · rw [hv]; simp only []; omega
      · rw [hv]; simp only []; omega
      · rw [hv]; simp only []; omega
      · rw [hv]
        have := hltu n1 (by simp)
        omega
      · have := hltu v (by simp [hv])
        omega
      · rw [hv]
        have := hltu wh (by simp)
        omega
    · intro hkc
      cases k with
      | true =>
        refine ⟨wh, (⟨u.nextId + 0, 0, false⟩ : RSlot).Reset ::
          ([⟨u.nextId + 1, 0, false⟩, ⟨u.nextId + 2, 0, false⟩, ⟨u.nextId + 3, 0, false⟩,
            ⟨u.nextId + 4, 0, false⟩] ++ (n1 :: rest1)), [], ?_, hwk, ?_, rfl⟩
        · show u.IDRing = some wh.id
          exact hidrT rfl
        · simp
      | false =>
        obtain ⟨hidru, hm0⟩ := hidrF rfl
        rw [hm0, List.drop_zero] at hd1
        have hkcold : 1 ≤ keyCount t.slots := by
          rw [hs, hd1]
          simp only [keyCount_cons, hn1t, if_true]
          omega
        obtain ⟨idr, pre, post, hpidr, hpif, hpslots, hpkc⟩ := hpsi hkcold
        rw [hs, hd1] at hpslots
        cases pre with
        | nil =>
          exfalso
          simp only [List.nil_append] at hpslots
          have : h0 = idr := by
            injection hpslots with h _
          rw [← this] at hpif
          rw [hh0f] at hpif
          cases hpif
        | cons p0 pre1 =>
          simp only [List.cons_append] at hpslots
          injection hpslots with hp0 hrest
          cases pre1 with
          | nil =>
            simp only [List.nil_append] at hrest
            injection hrest with hn1i hres
            refine ⟨idr, (⟨u.nextId + 0, 0, false⟩ : RSlot).Reset ::
              [⟨u.nextId + 1, 0, false⟩, ⟨u.nextId + 2, 0, false⟩, ⟨u.nextId + 3, 0, false⟩,
                ⟨u.nextId + 4, 0, false⟩], rest1 ++ [wh], ?_, hpif, ?_, ?_⟩
            · show u.IDRing = some idr.id
              rw [hidru, hpidr]
            · rw [← hn1i]
              simp
            · simp only [keyCount_append, keyCount_cons, keyCount_nil, hwk]
              rw [← hres] at hpkc
              simp [hpkc]
          | cons p1 pre2 =>
            simp only [List.cons_append] at hrest
            injection hrest with hp1 hrest2
            refine ⟨idr, (⟨u.nextId + 0, 0, false⟩ : RSlot).Reset ::
              ([⟨u.nextId + 1, 0, false⟩, ⟨u.nextId + 2, 0, false⟩, ⟨u.nextId + 3, 0, false⟩,
                ⟨u.nextId + 4, 0, false⟩] ++ (n1 :: pre2)), post ++ [wh], ?_, hpif, ?_, ?_⟩
            · show u.IDRing = some idr.id
              rw [hidru, hpidr]
            · rw [hrest2]
              simp
            · simp only [keyCount_append, keyCount_cons, keyCount_nil, hwk]
              simp [hpkc]

theorem initState_WF (n : Nat) (hn : 2 ≤ n) : WF (initState n) := by
  obtain ⟨m, rfl⟩ : ∃ m, n = m + 2 := ⟨n - 2, by omega⟩
  refine ⟨?_, ?_, ?_, ?_⟩
  · simp [initState]
  · exact hn
  · simp [initState, headSlot, List.range_succ_eq_map]
  · intro v hv
    simp only [initState, List.mem_map, List.mem_range] at hv
    obtain ⟨j, _, hvj⟩ := hv
    rw [← hvj]
    simp [initState]

theorem initState_inv (n : Nat) : RingInv (initState n) := by
  refine ⟨?_, ?_, ?_⟩
  · have hmap : (((List.range n).map
        (fun j => (⟨j, 0, false⟩ : RSlot))).map RSlot.id) = List.range n := by
      rw [List.map_map]
      simp [Function.comp_def]
    show (((List.range n).map (fun j => (⟨j, 0, false⟩ : RSlot))).map RSlot.id).Nodup
    rw [hmap]
    exact List.nodup_range _
  · intro v hv
    simp only [initState, List.mem_map, List.mem_range] at hv
    obtain ⟨j, hj, hvj⟩ := hv
    rw [← hvj]
    exact hj
  · intro hkc
    exfalso
    have hz : keyCount (initState n).slots = 0 := by
      simp [initState, keyCount, List.filter_map, Function.comp_def]
    omega

theorem runIngest_inv (keys : List Bool) (t : VideoState)
    (hwf : WF t) (hinv : RingInv t) :
    WF (runIngest keys t) ∧ RingInv (runIngest keys t) := by
  induction keys generalizing t with
  | nil => exact ⟨hwf, hinv⟩
  | cons k ks ih =>
    obtain ⟨hwf', hinv'⟩ := ingest_inv k t hwf hinv
    have hstep : runIngest (k :: ks) t = runIngest ks (ingest k t) := rfl
    rw [hstep]
    exact ih (ingest k t) hwf' hinv'

/-- **C8.**  After any ingest run on a fresh track cache, whenever at least
one keyframe is physically resident, a subscriber cursor from `ReadRing`
is positioned at the most-recent-keyframe marker (`IDRing`), not the live
write edge, and the first frame `Play` delivers through it is a keyframe
whose sequence number is at or before the writer's current position —
never a non-keyframe.  This holds unconditionally (even through the
grow-ceiling hole of C7, which can only remove the last resident keyframe
and thereby falsify the claim's premise, not its conclusion). -/
theorem Play_first_frame_is_keyframe (keys : List Bool) (n : Nat) (hn : 2 ≤ n)
    (hkey : 1 ≤ keyCount (runIngest keys (initState n)).slots) :
    ReadRing (runIngest keys (initState n)) = (runIngest keys (initState n)).IDRing ∧
    ∃ f, Play (runIngest keys (initState n)) = some f ∧ f.IFrame = true ∧
      f.SeqInTrack ≤ (runIngest keys (initState n)).seqCounter := by
  obtain ⟨hwf, hinv⟩ :=
    runIngest_inv keys (initState n) (initState_WF n hn) (initState_inv n)
  obtain ⟨hnd, _, hpsi⟩ := hinv
  obtain ⟨idr, pre, post, hpidr, hpif, hpslots, _⟩ := hpsi hkey
  refine ⟨rfl, idr, ?_, hpif, ?_⟩
  · unfold Play ReadRing
    rw [hpidr]
    simp only [Option.some_bind]
    rw [hpslots]
    exact find?_decomp pre post idr (by rw [← hpslots]; exact hnd)
  · exact hwf.2.2.2 idr (by rw [hpslots]; simp)

theorem Play_first_frame_is_keyframe_witness :
    ((2 : Nat) ≤ 2 ∧ 1 ≤ keyCount (runIngest [true] (initState 2)).slots) ∧
    (ReadRing (runIngest [true] (initState 2)) = (runIngest [true] (initState 2)).IDRing ∧
      ∃ f, Play (runIngest [true] (initState 2)) = some f ∧ f.IFrame = true ∧
        f.SeqInTrack ≤ (runIngest [true] (initState 2)).seqCounter) :=
  ⟨⟨by decide, by decide⟩, Play_first_frame_is_keyframe [true] 2 (by decide) (by decide)⟩
